import Mathlib

/-!
Shallow embedding of the webhook relay implemented in `src/main.py` and
verification of the frozen claims about it.

The program keeps, for each configured webhook name, a newline-delimited
JSON log file.  It exposes an unauthenticated ingest endpoint (POST
`/{name}`), a token-gated list endpoint (GET `/{name}/logs`) and a
token-gated clear endpoint (POST `/{name}/clearlogs`).  Before every ingest
and before every list the file is purged of entries older than seven days.
Payloads are also forwarded, formatted, to an external chat client; that
delivery never influences the stored state and is modelled as a no-op.

Modelling conventions:
* JSON values are the inductive `JVal`; JSON numbers are modelled as
  integers (floating-point literals are outside the embedding, so the
  modelled `json.loads` rejects number tokens with a fraction or exponent).
* `json.dumps(x, ensure_ascii=False)` is `dumps`, including Python's
  escape table for strings and its default `", "` / `": "` separators.
* `json.loads` is `json_loads`, a fuel-indexed recursive-descent parser
  mirroring Python's strict scanner: JSON whitespace only, no trailing
  data, strings reject raw control characters, duplicate object keys are
  resolved last-value-wins at the first occurrence position (like a Python
  dict), `\uXXXX` escapes are supported with surrogate-pair combination
  (lone surrogates, unrepresentable in Lean `Char`, are rejected).
* Wall-clock instants are civil date-times (`PyDT`) at second granularity
  (microseconds are dropped; they never influence any claim at the
  granularity the spec talks about).  `datetime.fromisoformat` is modelled
  on its standard dashed subset `YYYY-MM-DD[ sep HH:MM[:SS[.frac]]][offset]`
  with separator `T` or space and offset `Z` or `±HH:MM`;
  `datetime.strptime` with the two fixed fallback formats is modelled with
  zero-padded fields.  Differences of aware instants are taken through the
  proleptic-Gregorian day number (`daysFromCivil`), exactly as Python's
  `datetime` subtraction does.
* Python exceptions escaping a handler (`TypeError`, `AttributeError`)
  are modelled as `none` / a `none` response component; a raised exception
  aborts the function before any subsequent file write.
-/

namespace Webhook

/-! ### JSON values -/

/-- A JSON value as produced by Python's `json` module, with numbers
restricted to integers.  Objects are insertion-ordered association lists,
matching Python dicts. -/
inductive JVal where
  | null
  | bool (b : Bool)
  | num (n : Int)
  | str (s : String)
  | arr (elems : List JVal)
  | obj (fields : List (String × JVal))

mutual

/-- Boolean equality on `JVal`. -/
def jvalBEq : JVal → JVal → Bool
  | .null, .null => true
  | .bool a, .bool b => a == b
  | .num a, .num b => a == b
  | .str a, .str b => a == b
  | .arr a, .arr b => jvalListBEq a b
  | .obj a, .obj b => jvalFieldsBEq a b
  | _, _ => false

/-- Boolean equality on lists of `JVal`. -/
def jvalListBEq : List JVal → List JVal → Bool
  | [], [] => true
  | x :: xs, y :: ys => jvalBEq x y && jvalListBEq xs ys
  | _, _ => false

/-- Boolean equality on association lists of `JVal`. -/
def jvalFieldsBEq : List (String × JVal) → List (String × JVal) → Bool
  | [], [] => true
  | (k₁, v₁) :: xs, (k₂, v₂) :: ys => k₁ == k₂ && jvalBEq v₁ v₂ && jvalFieldsBEq xs ys
  | _, _ => false

end

/-! ### Serialization: `json.dumps(entry, ensure_ascii=False)` -/

/-- Decimal digit character for `n < 10`. -/
def digitChar (n : Nat) : Char := Char.ofNat (48 + n)

/-- Decimal digits of a natural number, most significant first, with a
structural fuel argument (any fuel above the digit count is enough). -/
def natCharsAux : Nat → Nat → List Char
  | 0, _ => []
  | fuel + 1, n =>
    if n < 10 then [digitChar n]
    else natCharsAux fuel (n / 10) ++ [digitChar (n % 10)]

/-- Decimal digits of a natural number, most significant first, as Python's
`str` renders it. -/
def natChars (n : Nat) : List Char := natCharsAux (n + 1) n

/-- Python `str` of an integer. -/
def intChars (n : Int) : List Char :=
  if n < 0 then '-' :: natChars n.natAbs else natChars n.natAbs

/-- Lowercase hexadecimal digit character for `n < 16`. -/
def hexDigitChar (n : Nat) : Char :=
  if n < 10 then digitChar n else Char.ofNat (87 + n)

/-- Escape one character the way Python's `json.dumps` (with
`ensure_ascii=False`) escapes characters inside string literals: `"`,
backslash and the five short control escapes get two-character escapes,
any other control character below 0x20 becomes `\u00XX`, everything else
is emitted verbatim. -/
def escapeChar (c : Char) : List Char :=
  if c = '"' then ['\\', '"']
  else if c = '\\' then ['\\', '\\']
  else if c = '\n' then ['\\', 'n']
  else if c = '\r' then ['\\', 'r']
  else if c = '\t' then ['\\', 't']
  else if c = '\x08' then ['\\', 'b']
  else if c = '\x0c' then ['\\', 'f']
  else if c.toNat < 32 then
    ['\\', 'u', '0', '0', hexDigitChar (c.toNat / 16), hexDigitChar (c.toNat % 16)]
  else [c]

/-- Escape every character of a string body. -/
def escapeChars (cs : List Char) : List Char :=
  cs.foldr (fun c acc => escapeChar c ++ acc) []

/-- Serialized JSON string literal (quotes included). -/
def dumpsStringLit (s : String) : List Char :=
  '"' :: escapeChars s.data ++ ['"']

mutual

/-- Characters of `json.dumps(v, ensure_ascii=False)` with Python's default
separators `", "` and `": "`. -/
def dumps : JVal → List Char
  | .null => 'n' :: 'u' :: 'l' :: ['l']
  | .bool true => 't' :: 'r' :: 'u' :: ['e']
  | .bool false => 'f' :: 'a' :: 'l' :: 's' :: ['e']
  | .num n => intChars n
  | .str s => dumpsStringLit s
  | .arr l => '[' :: dumpsElems l ++ [']']
  | .obj l => '\x7b' :: dumpsFields l ++ ['\x7d']

/-- Comma-and-space separated serializations of array elements. -/
def dumpsElems : List JVal → List Char
  | [] => []
  | [x] => dumps x
  | x :: y :: rest => dumps x ++ ',' :: ' ' :: dumpsElems (y :: rest)

/-- Comma-and-space separated serializations of object members, each as
`"key": value`. -/
def dumpsFields : List (String × JVal) → List Char
  | [] => []
  | [(k, v)] => dumpsStringLit k ++ ':' :: ' ' :: dumps v
  | (k, v) :: m :: rest =>
      dumpsStringLit k ++ ':' :: ' ' :: dumps v ++ ',' :: ' ' :: dumpsFields (m :: rest)

end

/-- The serialized form of a value as a `String` (one log-file line). -/
def dumpsStr (v : JVal) : String := String.mk (dumps v)

/-! ### Parsing: `json.loads` -/

/-- JSON whitespace (the only whitespace Python's `json` scanner skips). -/
def isJsonWs (c : Char) : Bool := c = ' ' || c = '\t' || c = '\n' || c = '\r'

/-- Drop leading JSON whitespace. -/
def skipWs : List Char → List Char
  | [] => []
  | c :: cs => if isJsonWs c then skipWs cs else c :: cs

/-- ASCII decimal digit test. -/
def isDigitCh (c : Char) : Bool := 48 ≤ c.toNat && c.toNat ≤ 57

/-- Value of an ASCII decimal digit. -/
def digitVal (c : Char) : Nat := c.toNat - 48

/-- Value of a hexadecimal digit, either case. -/
def hexVal (c : Char) : Option Nat :=
  if 48 ≤ c.toNat ∧ c.toNat ≤ 57 then some (c.toNat - 48)
  else if 97 ≤ c.toNat ∧ c.toNat ≤ 102 then some (c.toNat - 87)
  else if 65 ≤ c.toNat ∧ c.toNat ≤ 70 then some (c.toNat - 55)
  else none

/-- Longest prefix of decimal digits. -/
def takeDigits : List Char → List Char × List Char
  | [] => ([], [])
  | c :: cs =>
    if isDigitCh c then
      let p := takeDigits cs
      (c :: p.1, p.2)
    else ([], c :: cs)

/-- Numeric value of a digit sequence. -/
def digitsToNat (ds : List Char) : Nat := ds.foldl (fun a c => a * 10 + digitVal c) 0

/-- Parse an unsigned JSON integer token (`0|[1-9][0-9]*`), rejecting a
following fraction or exponent (Python floats are outside this
embedding). -/
def parseUIntToken : List Char → Option (Nat × List Char)
  | [] => none
  | c :: rest =>
    if isDigitCh c then
      let p := if c = '0' then (([] : List Char), rest) else takeDigits rest
      match p.2 with
      | [] => some (digitsToNat (c :: p.1), [])
      | d :: rest₂ =>
        if d = '.' ∨ d = 'e' ∨ d = 'E' then none
        else some (digitsToNat (c :: p.1), d :: rest₂)
    else none

/-- Parse a JSON number token as Python's scanner lexes it
(`-?(0|[1-9][0-9]*)` followed by optional fraction/exponent). -/
def parseNumToken (cs : List Char) : Option (JVal × List Char) :=
  match cs with
  | '-' :: cs₁ => (parseUIntToken cs₁).map (fun p => (.num (-(p.1 : Int)), p.2))
  | cs₁ => (parseUIntToken cs₁).map (fun p => (.num (p.1 : Int), p.2))

/-- Parse the body of a JSON string literal (opening quote already
consumed), with Python's strict rules: raw control characters are
rejected, the eight short escapes and `\uXXXX` are recognized, and a
high/low surrogate escape pair combines into one code point (a lone
surrogate escape is rejected, since Lean characters cannot hold it). -/
def parseStringBody : Nat → List Char → List Char → Option (String × List Char)
  | 0, _, _ => none
  | _ + 1, _, [] => none
  | fuel + 1, acc, c :: cs =>
    if c = '"' then some (String.mk acc.reverse, cs)
    else if c = '\\' then
      match cs with
      | 'u' :: h₁ :: h₂ :: h₃ :: h₄ :: rest =>
        match hexVal h₁, hexVal h₂, hexVal h₃, hexVal h₄ with
        | some a, some b, some cv, some d =>
          let v := ((a * 16 + b) * 16 + cv) * 16 + d
          if 0xD800 ≤ v ∧ v ≤ 0xDBFF then
            match rest with
            | '\\' :: 'u' :: g₁ :: g₂ :: g₃ :: g₄ :: rest₂ =>
              match hexVal g₁, hexVal g₂, hexVal g₃, hexVal g₄ with
              | some a₂, some b₂, some c₂, some d₂ =>
                let w := ((a₂ * 16 + b₂) * 16 + c₂) * 16 + d₂
                if 0xDC00 ≤ w ∧ w ≤ 0xDFFF then
                  parseStringBody fuel
                    (Char.ofNat (0x10000 + (v - 0xD800) * 0x400 + (w - 0xDC00)) :: acc) rest₂
                else none
              | _, _, _, _ => none
            | _ => none
          else if 0xDC00 ≤ v ∧ v ≤ 0xDFFF then none
          else parseStringBody fuel (Char.ofNat v :: acc) rest
        | _, _, _, _ => none
      | e :: rest =>
        if e = '"' then parseStringBody fuel ('"' :: acc) rest
        else if e = '\\' then parseStringBody fuel ('\\' :: acc) rest
        else if e = '/' then parseStringBody fuel ('/' :: acc) rest
        else if e = 'b' then parseStringBody fuel ('\x08' :: acc) rest
        else if e = 'f' then parseStringBody fuel ('\x0c' :: acc) rest
        else if e = 'n' then parseStringBody fuel ('\n' :: acc) rest
        else if e = 'r' then parseStringBody fuel ('\r' :: acc) rest
        else if e = 't' then parseStringBody fuel ('\t' :: acc) rest
        else none
      | [] => none
    else if c.toNat < 32 then none
    else parseStringBody fuel (c :: acc) cs


/-- Expect a fixed sequence of characters. -/
def expectChars : List Char → List Char → Option (List Char)
  | [], cs => some cs
  | e :: es, c :: cs => if c = e then expectChars es cs else none
  | _ :: _, [] => none

/-- Update-or-append a key in an association list, keeping the position of
the first occurrence — exactly how assigning to a Python dict key behaves. -/
def setField : List (String × JVal) → String → JVal → List (String × JVal)
  | [], k, v => [(k, v)]
  | (k₁, v₁) :: rest, k, v =>
      if k₁ = k then (k₁, v) :: rest else (k₁, v₁) :: setField rest k v

/-- Fold raw parsed members into a Python dict: later duplicate keys
overwrite the value at the first occurrence position. -/
def dedupFields (ps : List (String × JVal)) : List (String × JVal) :=
  ps.foldl (fun acc p => setField acc p.1 p.2) []

mutual

/-- Recursive-descent JSON value parse, mirroring Python's strict
`json.loads` scanner; `fuel` bounds the recursion depth and is chosen
large enough at the top level. -/
def parseVal : Nat → List Char → Option (JVal × List Char)
  | 0, _ => none
  | Nat.succ fuel, cs =>
    match skipWs cs with
    | [] => none
    | c :: cs₁ =>
      if c = 'n' then (expectChars ['u', 'l', 'l'] cs₁).map (fun r => (.null, r))
      else if c = 't' then (expectChars ['r', 'u', 'e'] cs₁).map (fun r => (.bool true, r))
      else if c = 'f' then (expectChars ['a', 'l', 's', 'e'] cs₁).map (fun r => (.bool false, r))
      else if c = '"' then (parseStringBody (cs₁.length + 1) [] cs₁).map (fun p => (.str p.1, p.2))
      else if c = '[' then
        match skipWs cs₁ with
        | ']' :: r => some (.arr [], r)
        | cs₂ => (parseElems fuel cs₂).map (fun p => (.arr p.1, p.2))
      else if c = '\x7b' then
        match skipWs cs₁ with
        | '\x7d' :: r => some (.obj [], r)
        | cs₂ => (parseMembers fuel cs₂).map (fun p => (.obj (dedupFields p.1), p.2))
      else parseNumToken (c :: cs₁)

/-- Parse the elements of a non-empty array (opening bracket consumed). -/
def parseElems : Nat → List Char → Option (List JVal × List Char)
  | 0, _ => none
  | Nat.succ fuel, cs =>
    match parseVal fuel cs with
    | none => none
    | some (v, r) =>
      match skipWs r with
      | ',' :: r₂ =>
        match parseElems fuel r₂ with
        | none => none
        | some (vs, r₃) => some (v :: vs, r₃)
      | ']' :: r₂ => some ([v], r₂)
      | _ => none

/-- Parse the members of a non-empty object (opening brace consumed),
returning the raw key-value pairs in source order. -/
def parseMembers : Nat → List Char → Option (List (String × JVal) × List Char)
  | 0, _ => none
  | Nat.succ fuel, cs =>
    match skipWs cs with
    | '"' :: r =>
      match parseStringBody (r.length + 1) [] r with
      | none => none
      | some (k, r₂) =>
        match skipWs r₂ with
        | ':' :: r₃ =>
          match parseVal fuel r₃ with
          | none => none
          | some (v, r₄) =>
            match skipWs r₄ with
            | ',' :: r₅ =>
              match parseMembers fuel r₅ with
              | none => none
              | some (ps, r₆) => some ((k, v) :: ps, r₆)
            | '\x7d' :: r₅ => some ([(k, v)], r₅)
            | _ => none
        | _ => none
    | _ => none

end

/-- Model of `json.loads`: parse one value, then require only whitespace
to remain. -/
def json_loads (s : String) : Option JVal :=
  match parseVal (s.data.length + 1) s.data with
  | some (v, rest) => if skipWs rest = [] then some v else none
  | none => none

/-! ### Python value helpers -/

/-- Python truthiness of a JSON value (`if x:`). -/
def pyTruthy : JVal → Bool
  | .null => false
  | .bool b => b
  | .num n => decide (n ≠ 0)
  | .str s => decide (s ≠ "")
  | .arr l => !l.isEmpty
  | .obj l => !l.isEmpty

/-- Python `dict.get`: the value bound to `k`, if any.  Dicts arising in
the program have unique keys, so first-match lookup is exact. -/
def jGet (fields : List (String × JVal)) (k : String) : Option JVal :=
  match fields with
  | [] => none
  | (k₁, v) :: rest => if k₁ = k then some v else jGet rest k

/-- Python `k in d` for a dict. -/
def hasKey (fields : List (String × JVal)) (k : String) : Bool :=
  (jGet fields k).isSome

/-! ### Civil date-times (`datetime`) -/

/-- Leap year in the proleptic Gregorian calendar. -/
def isLeap (y : Int) : Bool := (y % 4 = 0 && y % 100 ≠ 0) || y % 400 = 0

/-- Number of days in a month. -/
def daysInMonth (y : Int) (m : Nat) : Nat :=
  if m = 2 then (if isLeap y then 29 else 28)
  else if m = 4 ∨ m = 6 ∨ m = 9 ∨ m = 11 then 30
  else 31

/-- A Python `datetime` at second granularity: civil fields plus an
optional fixed UTC offset in minutes (`none` = naive). -/
structure PyDT where
  year : Int
  month : Nat
  day : Nat
  hour : Nat
  minute : Nat
  second : Nat
  tz : Option Int
  deriving DecidableEq, Repr

/-- The ranges Python's `datetime` constructor enforces. -/
def PyDT.valid (dt : PyDT) : Prop :=
  1 ≤ dt.year ∧ dt.year ≤ 9999 ∧ 1 ≤ dt.month ∧ dt.month ≤ 12 ∧
  1 ≤ dt.day ∧ dt.day ≤ daysInMonth dt.year dt.month ∧
  dt.hour ≤ 23 ∧ dt.minute ≤ 59 ∧ dt.second ≤ 59

instance (dt : PyDT) : Decidable dt.valid := by unfold PyDT.valid; infer_instance

/-- Validity of a civil date (the ranges `datetime` enforces; the year
bounds are not needed for the day arithmetic). -/
def DateValid (y : Int) (m d : Nat) : Prop :=
  1 ≤ m ∧ m ≤ 12 ∧ 1 ≤ d ∧ d ≤ daysInMonth y m

/-- Days since 1970-01-01 of a proleptic-Gregorian civil date (the
standard days-from-civil computation; Python's `datetime` subtraction
reduces to the same day number via `toordinal`). -/
def daysFromCivil (y m d : Int) : Int :=
  let y₁ := if m ≤ 2 then y - 1 else y
  let era := y₁ / 400
  let yoe := y₁ - era * 400
  let mp := (m + 9) % 12
  let doy := (153 * mp + 2) / 5 + d - 1
  let doe := yoe * 365 + yoe / 4 - yoe / 100 + doy
  era * 146097 + doe - 719468

/-- Seconds since the epoch of an instant; a naive date-time is read at
UTC, which matches every use site (the code always `replace`s a naive
timestamp with UTC before using it). -/
def epochSecs (dt : PyDT) : Int :=
  daysFromCivil dt.year dt.month dt.day * 86400 +
    (dt.hour * 3600 + dt.minute * 60 + dt.second : Nat) - dt.tz.getD 0 * 60

/-- The same civil instant with the time zone replaced (`dt.replace(tzinfo=...)`). -/
def withTz (dt : PyDT) (o : Int) : PyDT :=
  ⟨dt.year, dt.month, dt.day, dt.hour, dt.minute, dt.second, some o⟩

/-- Next civil day. -/
def nextDay : Int × Nat × Nat → Int × Nat × Nat
  | (y, m, d) =>
    if d < daysInMonth y m then (y, m, d + 1)
    else if m < 12 then (y, m + 1, 1)
    else (y + 1, 1, 1)

/-- Previous civil day. -/
def prevDay : Int × Nat × Nat → Int × Nat × Nat
  | (y, m, d) =>
    if 1 < d then (y, m, d - 1)
    else if 1 < m then (y, m - 1, daysInMonth y (m - 1))
    else (y - 1, 12, 31)

/-- Move a civil date by a signed number of days. -/
def applyDays (p : Int × Nat × Nat) : Int → Int × Nat × Nat
  | .ofNat n => nextDay^[n] p
  | .negSucc n => prevDay^[n + 1] p

/-- Shift a civil date-time by a number of minutes, carrying into the
date; the seconds field is unchanged (all shifts used here are whole
minutes). -/
def shiftCivilMinutes (dt : PyDT) (delta : Int) : Int × Nat × Nat × Nat × Nat :=
  let tot : Int := dt.hour * 60 + dt.minute + delta
  let dd := tot / 1440
  let tod := (tot % 1440).toNat
  let p := applyDays (dt.year, dt.month, dt.day) dd
  (p.1, p.2.1, p.2.2, tod / 60, tod % 60)

/-- The fixed IST offset (`timezone(timedelta(hours=5, minutes=30))`), in
minutes. -/
def IST_OFFSET_MIN : Int := 330

/-- Model of `dt.astimezone(IST)` on an aware date-time: shift the civil
fields by the offset difference and carry the IST offset. -/
def astimezoneIST (dt : PyDT) : PyDT :=
  let sh := shiftCivilMinutes dt (IST_OFFSET_MIN - dt.tz.getD 0)
  ⟨sh.1, sh.2.1, sh.2.2.1, sh.2.2.2.1, sh.2.2.2.2, dt.second, some IST_OFFSET_MIN⟩

/-! ### ISO-8601 parsing and rendering -/

/-- Parse exactly `n` decimal digits. -/
def parseDigitsAux : Nat → Nat → List Char → Option (Nat × List Char)
  | 0, acc, cs => some (acc, cs)
  | _ + 1, _, [] => none
  | n + 1, acc, c :: cs =>
    if isDigitCh c then parseDigitsAux n (acc * 10 + digitVal c) cs else none

/-- Expect one fixed character. -/
def expectCh (e : Char) : List Char → Option (List Char)
  | [] => none
  | c :: cs => if c = e then some cs else none

/-- Parse the optional UTC-offset suffix of an ISO time: nothing, `Z`, or
`±HH[:MM]`, with the ranges Python's fixed `timezone` accepts. -/
def parseIsoOffset : List Char → Option (Option Int)
  | [] => some none
  | ['Z'] => some (some 0)
  | c :: cs =>
    if c = '+' ∨ c = '-' then
      match parseDigitsAux 2 0 cs with
      | none => none
      | some (oh, rest) =>
        match rest with
        | [] =>
          if oh ≤ 23 then some (some (if c = '-' then -(oh * 60 : Int) else (oh * 60 : Int)))
          else none
        | ':' :: rest₂ =>
          match parseDigitsAux 2 0 rest₂ with
          | some (om, []) =>
            if oh ≤ 23 ∧ om ≤ 59 then
              some (some (if c = '-' then -(oh * 60 + om : Int) else (oh * 60 + om : Int)))
            else none
          | _ => none
        | _ => none
    else none

/-- Parse `[:SS[.ffffff]]` then the offset; seconds default to 0 and the
fraction is dropped (second granularity). -/
def parseIsoSecondsOffset : List Char → Option (Nat × Option Int)
  | ':' :: cs =>
    match parseDigitsAux 2 0 cs with
    | none => none
    | some (sec, rest) =>
      match rest with
      | '.' :: rest₂ =>
        let p := takeDigits rest₂
        if p.1 = [] then none
        else (parseIsoOffset p.2).map (fun o => (sec, o))
      | _ => (parseIsoOffset rest).map (fun o => (sec, o))
  | cs => (parseIsoOffset cs).map (fun o => (0, o))

/-- Model of `datetime.fromisoformat` on its standard dashed subset:
`YYYY-MM-DD`, optionally followed by a `T` or space separator and
`HH:MM[:SS[.ffffff]]` and an optional `Z`/`±HH[:MM]` offset.  Out-of-range
fields are rejected exactly as the real parser rejects them. -/
def isoParse (s : String) : Option PyDT :=
  match parseDigitsAux 4 0 s.data with
  | none => none
  | some (y, r₁) =>
    match expectCh '-' r₁ with
    | none => none
    | some r₂ =>
      match parseDigitsAux 2 0 r₂ with
      | none => none
      | some (mo, r₃) =>
        match expectCh '-' r₃ with
        | none => none
        | some r₄ =>
          match parseDigitsAux 2 0 r₄ with
          | none => none
          | some (d, r₅) =>
            match r₅ with
            | [] =>
              let dt : PyDT := ⟨y, mo, d, 0, 0, 0, none⟩
              if dt.valid then some dt else none
            | sep :: r₆ =>
              if sep = 'T' ∨ sep = ' ' then
                match parseDigitsAux 2 0 r₆ with
                | none => none
                | some (h, r₇) =>
                  match expectCh ':' r₇ with
                  | none => none
                  | some r₈ =>
                    match parseDigitsAux 2 0 r₈ with
                    | none => none
                    | some (mi, r₉) =>
                      match parseIsoSecondsOffset r₉ with
                      | none => none
                      | some (sec, o) =>
                        let dt : PyDT := ⟨y, mo, d, h, mi, sec, o⟩
                        if dt.valid then some dt else none
              else none

/-- Model of `datetime.strptime(s, "%Y-%m-%d{sep}%H:%M:%S")` for a fixed
separator character, on zero-padded fields; the result is naive. -/
def strptimeYmdHms (sep : Char) (s : String) : Option PyDT :=
  match parseDigitsAux 4 0 s.data with
  | some (y, '-' :: r₁) =>
    match parseDigitsAux 2 0 r₁ with
    | some (mo, '-' :: r₂) =>
      match parseDigitsAux 2 0 r₂ with
      | some (d, c :: r₃) =>
        if c = sep then
          match parseDigitsAux 2 0 r₃ with
          | some (h, ':' :: r₄) =>
            match parseDigitsAux 2 0 r₄ with
            | some (mi, ':' :: r₅) =>
              match parseDigitsAux 2 0 r₅ with
              | some (sec, []) =>
                let dt : PyDT := ⟨y, mo, d, h, mi, sec, none⟩
                if dt.valid then some dt else none
              | _ => none
            | _ => none
          | _ => none
        else none
      | _ => none
    | _ => none
  | _ => none

/-- Timestamp parsing in `purge_old_entries`: `fromisoformat` (naive
taken as UTC) with a `strptime("%Y-%m-%dT%H:%M:%S")` fallback, also read
at UTC.  Returns an aware instant, or `none` when the string is
unparseable (both `ValueError`s caught). -/
def purgeParseTs (s : String) : Option PyDT :=
  match isoParse s with
  | some dt => some (if dt.tz.isSome then dt else withTz dt 0)
  | none =>
    match strptimeYmdHms 'T' s with
    | some dt => some (withTz dt 0)
    | none => none

/-- Timestamp parsing in `_format_timestamp_ist`: `fromisoformat`, then
the `%Y-%m-%dT%H:%M:%S` and `%Y-%m-%d %H:%M:%S` fallbacks; naiveness is
preserved (the caller replaces a naive result with UTC afterwards). -/
def fmtParseTs (s : String) : Option PyDT :=
  match isoParse s with
  | some dt => some dt
  | none =>
    match strptimeYmdHms 'T' s with
    | some dt => some dt
    | none => strptimeYmdHms ' ' s

/-- Two zero-padded decimal digits. -/
def pad2 (n : Nat) : List Char := [digitChar (n / 10), digitChar (n % 10)]

/-- Four zero-padded decimal digits. -/
def pad4 (n : Nat) : List Char :=
  [digitChar (n / 1000), digitChar (n / 100 % 10), digitChar (n / 10 % 10), digitChar (n % 10)]

/-- Model of `datetime.isoformat()` at second granularity. -/
def isoformatDT (dt : PyDT) : String :=
  let offs := match dt.tz with
    | none => []
    | some o =>
      (if o < 0 then '-' else '+') :: pad2 (o.natAbs / 60) ++ ':' :: pad2 (o.natAbs % 60)
  String.mk (pad4 dt.year.toNat ++ '-' :: pad2 dt.month ++ '-' :: pad2 dt.day ++
    'T' :: pad2 dt.hour ++ ':' :: pad2 dt.minute ++ ':' :: pad2 dt.second ++ offs)

/-- Model of `strftime("%H:%M:%S %d/%m/%Y")`. -/
def strftimeHmsDmy (dt : PyDT) : String :=
  String.mk (pad2 dt.hour ++ ':' :: pad2 dt.minute ++ ':' :: pad2 dt.second ++
    ' ' :: pad2 dt.day ++ '/' :: pad2 dt.month ++ '/' :: pad4 dt.year.toNat)

/-! ### Retention purge (`purge_old_entries`) -/

/-- Python `str.strip()` whitespace, on the character set relevant here
(ASCII whitespace plus NEL/NBSP). -/
def pyIsSpaceCh (c : Char) : Bool :=
  c = ' ' || c = '\t' || c = '\n' || c = '\r' || c = '\x0b' || c = '\x0c' ||
    (0x1c ≤ c.toNat && c.toNat ≤ 0x1f) || c = '\x85' || c = '\xa0'

/-- Python `line.strip()`. -/
def pyStrip (s : String) : String :=
  String.mk (((s.data.dropWhile pyIsSpaceCh).reverse.dropWhile pyIsSpaceCh).reverse)

/-- Seconds per day. -/
def DAY_SECS : Int := 86400

/-- Effective timestamp (epoch seconds) of a stored entry, as
`purge_old_entries` computes it: `entry.get("timestamp")`; a falsy or
absent value, or a string that fails both parses, means "now".  `none`
models an uncaught exception: `AttributeError` when the entry is not a
dict, or `TypeError` when a truthy non-string is fed to `fromisoformat`
(only `ValueError` is caught). -/
def entryEffTs (now : Int) (entry : JVal) : Option Int :=
  match entry with
  | .obj fields =>
    match jGet fields "timestamp" with
    | none => some now
    | some v =>
      if pyTruthy v then
        match v with
        | .str s =>
          match purgeParseTs s with
          | some dt => some (epochSecs dt)
          | none => some now
        | _ => none
      else some now
  | _ => none

/-- The retention test `(now - ts).days <= 7`; `timedelta.days` is the
floor of the difference in days. -/
def keepEntry (now ts : Int) : Bool := (now - ts) / DAY_SECS ≤ 7

/-- The kept, parsed entries of a log file's lines: blank and malformed
lines are skipped, every parsed entry's effective timestamp is computed
(`none` propagates an exception, which aborts the whole purge before the
file is rewritten), and entries within the 7-day window are kept in
order. -/
def purgeEntries (now : Int) : List String → Option (List JVal)
  | [] => some []
  | line :: rest =>
    if pyStrip line = "" then purgeEntries now rest
    else
      match json_loads (pyStrip line) with
      | none => purgeEntries now rest
      | some entry =>
        match entryEffTs now entry with
        | none => none
        | some ts =>
          match purgeEntries now rest with
          | none => none
          | some keptRest =>
            some (if keepEntry now ts then entry :: keptRest else keptRest)

/-- Model of `purge_old_entries` on an existing file, as a function from
the file's lines to the rewritten lines (each kept entry re-serialized);
`none` models an uncaught exception, in which case the file is not
rewritten. -/
def purge_old_entries (now : Int) (lines : List String) : Option (List String) :=
  (purgeEntries now lines).map (List.map dumpsStr)

/-- Purge against an optional file (`none` = the file does not exist, in
which case `purge_old_entries` returns without touching anything). -/
def purgeFile (now : Int) : Option (List String) → Option (Option (List String))
  | none => some none
  | some lines => (purge_old_entries now lines).map some

/-! ### HTTP handlers -/

/-- The shared secret gating the read and clear endpoints. -/
def DOWNLOAD_SECRET : String := "my_download_secret_9876"

/-- The configured webhook names. -/
def WEBHOOKS : List String := ["webhook1", "webhook2"]

/-- An HTTP response: a JSON body (via `jsonify`) or a plain text body,
with its status code. -/
inductive Resp where
  | jsonR (v : JVal) (code : Nat)
  | textR (s : String) (code : Nat)

/-- The fixed 401 body. -/
def unauthorizedResp : Resp := .jsonR (.obj [("error", .str "Unauthorized")]) 401

/-- Ordered list of successfully parsed entries of the file's lines, as
the GET handler reads them back (blank and malformed lines skipped). -/
def readLogs (lines : List String) : List JVal :=
  lines.filterMap (fun line =>
    if pyStrip line = "" then none else json_loads (pyStrip line))

/-- Model of the GET `/{name}/logs` handler: token gate, purge, then read
the (now existing) file; the result pairs the response with the file
state afterwards, and `none` models an uncaught exception escaping from
the purge (the file is then unchanged). -/
def make_get_handler (now : Int) (token : Option String) (file : Option (List String)) :
    Option (Resp × Option (List String)) :=
  if token ≠ some DOWNLOAD_SECRET then some (unauthorizedResp, file)
  else
    match purgeFile now file with
    | none => none
    | some none => some (.jsonR (.arr []) 200, none)
    | some (some lines) => some (.jsonR (.arr (readLogs lines)) 200, some lines)

/-- Does a Python `"timestamp" not in data` succeed-and-hold for this
string (substring containment)? -/
def startsWithList : List Char → List Char → Bool
  | [], _ => true
  | _ :: _, [] => false
  | a :: as, b :: bs => a = b && startsWithList as bs

/-- Substring containment, Python's `in` on strings. -/
def containsSub (s pat : String) : Bool :=
  let rec go : List Char → Bool
    | [] => startsWithList pat.data []
    | c :: cs => startsWithList pat.data (c :: cs) || go cs
  go s.data

/-- Model of the POST `/{name}` handler on an already-JSON-decoded body
(`request.get_json(force=True, silent=False)` has rejected non-JSON
bodies with an error before this logic runs).  A falsy body is replaced
by an empty dict.  `"timestamp" not in data` is dict-key membership for
dicts, substring membership for strings, element membership for lists,
and raises `TypeError` otherwise; `data["timestamp"] = ...` raises
`TypeError` on non-dicts.  The entry is appended after the purge; the
chat delivery step crashes on non-dict entries (`data.items()`), after
the append.  The first component is the response (`none` = an uncaught
exception, a 500), the second the resulting file state. -/
def make_post_handler (nowDT : PyDT) (body : JVal) (file : Option (List String)) :
    Option Resp × Option (List String) :=
  let data := if pyTruthy body then body else .obj []
  match data with
  | .obj fields =>
    let fields₂ :=
      if hasKey fields "timestamp" then fields
      else fields ++ [("timestamp", .str (isoformatDT nowDT))]
    match purgeFile (epochSecs nowDT) file with
    | none => (none, file)
    | some f₂ => (some (.textR "" 200), some (f₂.getD [] ++ [dumpsStr (.obj fields₂)]))
  | .str s =>
    if containsSub s "timestamp" then
      match purgeFile (epochSecs nowDT) file with
      | none => (none, file)
      | some f₂ => (none, some (f₂.getD [] ++ [dumpsStr (.str s)]))
    else (none, file)
  | .arr l =>
    if l.any (fun v => match v with | .str s => s = "timestamp" | _ => false) then
      match purgeFile (epochSecs nowDT) file with
      | none => (none, file)
      | some f₂ => (none, some (f₂.getD [] ++ [dumpsStr (.arr l)]))
    else (none, file)
  | _ => (none, file)

/-- Model of the POST `/{name}/clearlogs` handler: token gate, then
truncate the file to empty (creating it if absent) and confirm. -/
def make_clear_handler (name : String) (token : Option String) (file : Option (List String)) :
    Resp × Option (List String) :=
  if token ≠ some DOWNLOAD_SECRET then (unauthorizedResp, file)
  else (.jsonR (.obj [("status", .str (name ++ "_logs.json cleared"))]) 200, some [])

/-! ### Message formatter (`_build_curated_message`, `_format_timestamp_ist`) -/

/-- The apostrophe character (used by Python `repr` of strings). -/
def aposChar : Char := Char.ofNat 39

/-- Escape one character the way Python `repr` of a string does (model of
the common single-quoted form). -/
def reprEscapeChar (c : Char) : List Char :=
  if c = '\\' then ['\\', '\\']
  else if c = aposChar then ['\\', aposChar]
  else if c = '\n' then ['\\', 'n']
  else if c = '\r' then ['\\', 'r']
  else if c = '\t' then ['\\', 't']
  else if c.toNat < 32 ∨ c.toNat = 127 then
    ['\\', 'x', hexDigitChar (c.toNat / 16), hexDigitChar (c.toNat % 16)]
  else [c]

mutual

/-- Python `repr` of a parsed-JSON value (reached only through
`str(value)` on a container-valued `timestamp` field; modelled in its
common single-quoted form). -/
def pyReprV : JVal → List Char
  | .null => ['N', 'o', 'n', 'e']
  | .bool true => ['T', 'r', 'u', 'e']
  | .bool false => ['F', 'a', 'l', 's', 'e']
  | .num n => intChars n
  | .str s => aposChar :: (s.data.foldr (fun c acc => reprEscapeChar c ++ acc) []) ++ [aposChar]
  | .arr l => '[' :: pyReprElems l ++ [']']
  | .obj l => '\x7b' :: pyReprFields l ++ ['\x7d']

/-- Comma-separated `repr`s of list elements. -/
def pyReprElems : List JVal → List Char
  | [] => []
  | [x] => pyReprV x
  | x :: y :: rest => pyReprV x ++ ',' :: ' ' :: pyReprElems (y :: rest)

/-- Comma-separated `repr`s of dict items. -/
def pyReprFields : List (String × JVal) → List Char
  | [] => []
  | [(k, v)] => pyReprV (.str k) ++ ':' :: ' ' :: pyReprV v
  | (k, v) :: m :: rest =>
      pyReprV (.str k) ++ ':' :: ' ' :: pyReprV v ++ ',' :: ' ' :: pyReprFields (m :: rest)

end

/-- Python `str()` of a parsed-JSON value. -/
def pyStr : JVal → String
  | .null => "None"
  | .bool true => "True"
  | .bool false => "False"
  | .num n => String.mk (intChars n)
  | .str s => s
  | .arr l => String.mk (pyReprV (.arr l))
  | .obj l => String.mk (pyReprV (.obj l))

/-- Model of `_format_timestamp_ist`: a string value is parsed
(`fromisoformat`, then the two `strptime` fallbacks); on failure it is
returned verbatim; on success a naive result is read as UTC, converted to
the fixed IST offset and rendered `%H:%M:%S %d/%m/%Y`.  A non-string is
rendered with `str()` (the `datetime` branch is unreachable for JSON
data). -/
def formatTimestampIST (v : JVal) : String :=
  match v with
  | .str s =>
    match fmtParseTs s with
    | none => s
    | some dt =>
      let dt₂ := if dt.tz.isSome then dt else withTz dt 0
      strftimeHmsDmy (astimezoneIST dt₂)
  | _ => pyStr v

/-- The fixed exclusion set of `_build_curated_message`. -/
def EXCLUDED_KEYS : List String := ["webhook_url", "alert_name", "scan_name", "scan_url"]

/-- Python `key.replace("_", " ")`. -/
def pyReplaceUnderscore (s : String) : String :=
  String.mk (s.data.map (fun c => if c = '_' then ' ' else c))

/-- Python `str.title()` (ASCII model): an alphabetic character is
uppercased after a non-alphabetic character and lowercased otherwise. -/
def pyTitle (s : String) : String :=
  String.mk ((s.data.foldl (fun st c =>
    let c₂ := if c.isAlpha then (if st.2 then c.toLower else c.toUpper) else c
    (c₂ :: st.1, c.isAlpha)) (([] : List Char), false)).1.reverse)

/-- The label of a rendered field: the key, underscores replaced by
spaces and title-cased, except `timestamp` which is relabeled. -/
def fieldLabel (k : String) : String :=
  if k = "timestamp" then "Timestamp (IST)" else pyTitle (pyReplaceUnderscore k)

/-- The rendered value of a field: the IST rendering for `timestamp`,
compact JSON for containers, `str()` otherwise. -/
def fieldValueStr (k : String) (v : JVal) : String :=
  if k = "timestamp" then formatTimestampIST v
  else match v with
  | .arr _ => dumpsStr v
  | .obj _ => dumpsStr v
  | _ => pyStr v

/-- The message line contributed by one field, if any: excluded keys,
null values and empty rendered values contribute nothing. -/
def curatedLineOf (k : String) (v : JVal) : Option String :=
  if k ∈ EXCLUDED_KEYS then none
  else match v with
  | .null => none
  | _ => if fieldValueStr k v = "" then none
         else some (fieldLabel k ++ ": " ++ fieldValueStr k v)

/-- The per-field lines of the curated message, in field order. -/
def curatedLines (fields : List (String × JVal)) : List String :=
  fields.filterMap (fun kv => curatedLineOf kv.1 kv.2)

/-- Model of `_build_curated_message`: fixed two-line header followed by
the per-field lines, joined with newlines. -/
def buildCuratedMessage (fields : List (String × JVal)) : String :=
  String.intercalate "\n" (["PriceAction Alert (Buy or Sell detected)", ""] ++ curatedLines fields)

/-! ### Well-formedness, sizes and side predicates used by the proofs -/

/-- No two members of an object share a key (as is the case for every
object produced by `json.loads`). -/
def nodupKeys : List (String × JVal) → Bool
  | [] => true
  | (k, _) :: xs => !(xs.any (fun p => p.1 == k)) && nodupKeys xs

mutual

/-- Recursively duplicate-free object keys: exactly the values on which
serialization is injective under re-parsing. -/
def wfV : JVal → Bool
  | .null => true
  | .bool _ => true
  | .num _ => true
  | .str _ => true
  | .arr l => wfL l
  | .obj l => nodupKeys l && wfM l

/-- `wfV` on every element. -/
def wfL : List JVal → Bool
  | [] => true
  | x :: xs => wfV x && wfL xs

/-- `wfV` on every member value. -/
def wfM : List (String × JVal) → Bool
  | [] => true
  | kv :: xs => wfV kv.2 && wfM xs

end

mutual

/-- Parser-fuel measure of a value. -/
def JszV : JVal → Nat
  | .null => 1
  | .bool _ => 1
  | .num _ => 1
  | .str _ => 1
  | .arr l => JszL l + 1
  | .obj l => JszM l + 1

/-- Parser-fuel measure of array elements. -/
def JszL : List JVal → Nat
  | [] => 0
  | x :: xs => JszV x + JszL xs + 1

/-- Parser-fuel measure of object members. -/
def JszM : List (String × JVal) → Nat
  | [] => 0
  | kv :: xs => JszV kv.2 + JszM xs + 1

end

/-- A continuation in front of which a number token parses unambiguously:
empty, or starting with a character that extends no number token.  The
separators and closers emitted by `dumps` all qualify. -/
def numSafe : List Char → Prop
  | [] => True
  | c :: _ => isDigitCh c = false ∧ c ≠ '.' ∧ c ≠ 'e' ∧ c ≠ 'E'

/-- The `timestamp` shapes on which the purge cannot raise: absent,
falsy, or a string. -/
def tsSafe (fields : List (String × JVal)) : Bool :=
  match jGet fields "timestamp" with
  | none => true
  | some (.str _) => true
  | some v => !pyTruthy v

/-! ### Helper lemmas -/

mutual

theorem jvalBEq_iff : ∀ a b : JVal, jvalBEq a b = true ↔ a = b
  | .null, .null => by simp [jvalBEq]
  | .bool a, .bool b => by simp [jvalBEq]
  | .num a, .num b => by simp [jvalBEq]
  | .str a, .str b => by simp [jvalBEq]
  | .arr a, .arr b => by
      simpa [jvalBEq] using jvalListBEq_iff a b
  | .obj a, .obj b => by
      simpa [jvalBEq] using jvalFieldsBEq_iff a b
  | .null, .bool _ | .null, .num _ | .null, .str _ | .null, .arr _ | .null, .obj _
  | .bool _, .null | .bool _, .num _ | .bool _, .str _ | .bool _, .arr _ | .bool _, .obj _
  | .num _, .null | .num _, .bool _ | .num _, .str _ | .num _, .arr _ | .num _, .obj _
  | .str _, .null | .str _, .bool _ | .str _, .num _ | .str _, .arr _ | .str _, .obj _
  | .arr _, .null | .arr _, .bool _ | .arr _, .num _ | .arr _, .str _ | .arr _, .obj _
  | .obj _, .null | .obj _, .bool _ | .obj _, .num _ | .obj _, .str _ | .obj _, .arr _ => by
      simp [jvalBEq]

theorem jvalListBEq_iff : ∀ a b : List JVal, jvalListBEq a b = true ↔ a = b
  | [], [] => by simp [jvalListBEq]
  | [], _ :: _ => by simp [jvalListBEq]
  | _ :: _, [] => by simp [jvalListBEq]
  | x :: xs, y :: ys => by
      simp [jvalListBEq, jvalBEq_iff x y, jvalListBEq_iff xs ys]

theorem jvalFieldsBEq_iff : ∀ a b : List (String × JVal), jvalFieldsBEq a b = true ↔ a = b
  | [], [] => by simp [jvalFieldsBEq]
  | [], _ :: _ => by simp [jvalFieldsBEq]
  | _ :: _, [] => by simp [jvalFieldsBEq]
  | (k₁, v₁) :: xs, (k₂, v₂) :: ys => by
      simp [jvalFieldsBEq, jvalBEq_iff v₁ v₂, jvalFieldsBEq_iff xs ys, and_assoc]

end

instance : DecidableEq JVal := fun a b =>
  decidable_of_iff (jvalBEq a b = true) (jvalBEq_iff a b)

/-! Round-trip of the serializer through the parser, starting with the
primitive tokens. -/

theorem string_mk_data (s : String) : String.mk s.data = s := rfl

theorem isDigitCh_digitChar (d : Nat) (h : d ≤ 9) : isDigitCh (digitChar d) = true := by
  interval_cases d <;> decide

theorem digitVal_digitChar (d : Nat) (h : d ≤ 9) : digitVal (digitChar d) = d := by
  interval_cases d <;> decide

theorem digitChar_ne_dash (d : Nat) (h : d ≤ 9) : digitChar d ≠ '-' := by
  interval_cases d <;> decide

theorem digitChar_eq_zero_iff (d : Nat) (h : d ≤ 9) : digitChar d = '0' ↔ d = 0 := by
  interval_cases d <;> simp <;> decide

theorem hexVal_hexDigitChar (m : Nat) (h : m ≤ 15) : hexVal (hexDigitChar m) = some m := by
  interval_cases m <;> decide

theorem natCharsAux_irrel (n : Nat) : ∀ f₁ f₂, n < f₁ → n < f₂ →
    natCharsAux f₁ n = natCharsAux f₂ n := by
  induction n using Nat.strong_induction_on with
  | _ n ih =>
    intro f₁ f₂ h₁ h₂
    match f₁, f₂ with
    | fa + 1, fb + 1 =>
      simp only [natCharsAux]
      by_cases h10 : n < 10
      · simp [h10]
      · have hdiv : n / 10 < n := Nat.div_lt_self (by omega) (by omega)
        simp only [h10, if_false]
        rw [ih (n / 10) hdiv fa fb (by omega) (by omega)]

theorem natChars_eq (n : Nat) : natChars n =
    if n < 10 then [digitChar n] else natChars (n / 10) ++ [digitChar (n % 10)] := by
  by_cases h10 : n < 10
  · simp [natChars, natCharsAux, h10]
  · have hdiv : n / 10 < n := Nat.div_lt_self (by omega) (by omega)
    unfold natChars
    conv_lhs => rw [natCharsAux]
    simp only [h10, if_false]
    rw [natCharsAux_irrel (n / 10) n (n / 10 + 1) (by omega) (by omega)]

theorem natChars_digits (n : Nat) : ∀ c ∈ natChars n, isDigitCh c = true := by
  induction n using Nat.strong_induction_on with
  | _ n ih =>
    rw [natChars_eq]
    by_cases h10 : n < 10
    · simp only [h10, if_true, List.mem_singleton]
      rintro c rfl
      exact isDigitCh_digitChar n (by omega)
    · have hdiv : n / 10 < n := Nat.div_lt_self (by omega) (by omega)
      simp only [h10, if_false, List.mem_append, List.mem_singleton]
      rintro c (hc | rfl)
      · exact ih (n / 10) hdiv c hc
      · exact isDigitCh_digitChar (n % 10) (by omega)

theorem digitsToNat_append_one (xs : List Char) (c : Char) :
    digitsToNat (xs ++ [c]) = digitsToNat xs * 10 + digitVal c := by
  simp [digitsToNat, List.foldl_append]

theorem digitsToNat_natChars (n : Nat) : digitsToNat (natChars n) = n := by
  induction n using Nat.strong_induction_on with
  | _ n ih =>
    rw [natChars_eq]
    by_cases h10 : n < 10
    · simp only [h10, if_true]
      simp [digitsToNat, digitVal_digitChar n (by omega : n ≤ 9)]
    · have hdiv : n / 10 < n := Nat.div_lt_self (by omega) (by omega)
      simp only [h10, if_false, digitsToNat_append_one, ih (n / 10) hdiv,
        digitVal_digitChar (n % 10) (by omega)]
      omega

theorem natChars_head (n : Nat) :
    ∃ d ds, natChars n = digitChar d :: ds ∧ d ≤ 9 ∧ (1 ≤ n → 1 ≤ d) := by
  induction n using Nat.strong_induction_on with
  | _ n ih =>
    rw [natChars_eq]
    by_cases h10 : n < 10
    · exact ⟨n, [], by simp [h10], by omega, fun h => h⟩
    · have hdiv : n / 10 < n := Nat.div_lt_self (by omega) (by omega)
      obtain ⟨d, ds, heq, hd9, hd1⟩ := ih (n / 10) hdiv
      refine ⟨d, ds ++ [digitChar (n % 10)], ?_, hd9, fun _ => hd1 (by omega)⟩
      simp [h10, heq]

theorem takeDigits_append (ds rest : List Char)
    (hds : ∀ c ∈ ds, isDigitCh c = true) (hrest : numSafe rest) :
    takeDigits (ds ++ rest) = (ds, rest) := by
  induction ds with
  | nil =>
    simp only [List.nil_append]
    cases rest with
    | nil => rfl
    | cons c cs =>
      obtain ⟨h1, _, _, _⟩ := hrest
      unfold takeDigits
      simp [h1]
  | cons c cs ih =>
    have hc := hds c (by simp)
    unfold takeDigits
    simp [hc, ih (fun c₂ hc₂ => hds c₂ (by simp [hc₂]))]

theorem parseUIntToken_natChars (n : Nat) (rest : List Char) (hrest : numSafe rest) :
    parseUIntToken (natChars n ++ rest) = some (n, rest) := by
  by_cases hn0 : n = 0
  · subst hn0
    show parseUIntToken ('0' :: rest) = some (0, rest)
    cases rest with
    | nil => rfl
    | cons c cs =>
      obtain ⟨h1, h2, h3, h4⟩ := hrest
      unfold parseUIntToken
      simp [isDigitCh, h2, h3, h4, digitsToNat, digitVal]
  · obtain ⟨d, ds, heq, hd9, hd1⟩ := natChars_head n
    have hd1 : 1 ≤ d := hd1 (by omega)
    have hdigs : ∀ c ∈ ds, isDigitCh c = true := by
      intro c hc
      exact natChars_digits n c (by rw [heq]; simp [hc])
    have htake := takeDigits_append ds rest hdigs hrest
    have hval : digitsToNat (digitChar d :: ds) = n := by
      rw [show digitChar d :: ds = natChars n from heq.symm, digitsToNat_natChars]
    rw [heq]
    unfold parseUIntToken
    simp only [List.cons_append, isDigitCh_digitChar d hd9, if_true,
      (digitChar_eq_zero_iff d hd9).not.mpr (by omega), if_neg, htake]
    cases rest with
    | nil => simp [hval]
    | cons c cs =>
      obtain ⟨h1, h2, h3, h4⟩ := hrest
      simp [h2, h3, h4, hval]

theorem parseNumToken_intChars (n : Int) (rest : List Char) (hrest : numSafe rest) :
    parseNumToken (intChars n ++ rest) = some (.num n, rest) := by
  unfold intChars
  by_cases hneg : n < 0
  · simp only [hneg, if_true, List.cons_append]
    show (parseUIntToken (natChars n.natAbs ++ rest)).map _ = _
    rw [parseUIntToken_natChars n.natAbs rest hrest]
    simp only [Option.map_some']
    rw [show -(n.natAbs : Int) = n by omega]
  · simp only [hneg, if_false]
    obtain ⟨d, ds, heq, hd9, _⟩ := natChars_head n.natAbs
    rw [heq, List.cons_append]
    unfold parseNumToken
    split
    · rename_i heq₂
      exact absurd (List.head_eq_of_cons_eq heq₂) (digitChar_ne_dash d hd9)
    · rename_i cs₁ heq₂
      rw [show digitChar d :: (ds ++ rest) = natChars n.natAbs ++ rest by
            rw [heq, List.cons_append],
        parseUIntToken_natChars n.natAbs rest hrest]
      simp only [Option.map_some']
      rw [show (n.natAbs : Int) = n by omega]

theorem expectChars_append (es rest : List Char) : expectChars es (es ++ rest) = some rest := by
  induction es with
  | nil => rfl
  | cons c cs ih =>
    unfold expectChars
    simp [ih]

theorem skipWs_not_ws (c : Char) (cs : List Char) (h : isJsonWs c = false) :
    skipWs (c :: cs) = c :: cs := by
  unfold skipWs
  simp [h]

theorem parseStringBody_escape (s : List Char) : ∀ (fuel : Nat) (acc rest : List Char),
    s.length < fuel →
    parseStringBody fuel acc (escapeChars s ++ '"' :: rest) =
      some (String.mk (acc.reverse ++ s), rest) := by
  induction s with
  | nil =>
    intro fuel acc rest hf
    match fuel, hf with
    | f + 1, _ =>
      show parseStringBody (f + 1) acc ('"' :: rest) = _
      simp [parseStringBody]
  | cons c cs ih =>
    intro fuel acc rest hf
    match fuel, hf with
    | f + 1, hff =>
      have hf₂ : cs.length < f := by
        simp only [List.length_cons] at hff
        omega
      have hesc : escapeChars (c :: cs) ++ '"' :: rest =
          escapeChar c ++ (escapeChars cs ++ '"' :: rest) := by
        simp [escapeChars]
      have hres : String.mk (acc.reverse ++ c :: cs) = String.mk ((c :: acc).reverse ++ cs) := by
        simp
      rw [hesc, hres]
      by_cases h1 : c = '"'
      · subst h1
        exact ih f ('"' :: acc) rest hf₂
      · by_cases h2 : c = '\\'
        · subst h2
          exact ih f ('\\' :: acc) rest hf₂
        · by_cases h3 : c = '\n'
          · subst h3
            exact ih f ('\n' :: acc) rest hf₂
          · by_cases h4 : c = '\r'
            · subst h4
              exact ih f ('\r' :: acc) rest hf₂
            · by_cases h5 : c = '\t'
              · subst h5
                exact ih f ('\t' :: acc) rest hf₂
              · by_cases h6 : c = '\x08'
                · subst h6
                  exact ih f ('\x08' :: acc) rest hf₂
                · by_cases h7 : c = '\x0c'
                  · subst h7
                    exact ih f ('\x0c' :: acc) rest hf₂
                  · by_cases h8 : c.toNat < 32
                    · have hec : escapeChar c = ['\\', 'u', '0', '0',
                          hexDigitChar (c.toNat / 16), hexDigitChar (c.toNat % 16)] := by
                        unfold escapeChar
                        simp [h1, h2, h3, h4, h5, h6, h7, h8]
                      rw [hec]
                      simp only [List.cons_append, List.nil_append]
                      have hstep : parseStringBody (f + 1) acc
                          ('\\' :: 'u' :: '0' :: '0' :: hexDigitChar (c.toNat / 16) ::
                            hexDigitChar (c.toNat % 16) :: (escapeChars cs ++ '"' :: rest)) =
                          parseStringBody f (c :: acc) (escapeChars cs ++ '"' :: rest) := by
                        conv_lhs => rw [parseStringBody]
                        norm_num [hexVal_hexDigitChar (c.toNat / 16) (by omega),
                          hexVal_hexDigitChar (c.toNat % 16) (by omega),
                          (by decide : hexVal '0' = some 0)]
                        split_ifs with hx₁ hx₂ hx₃
                        · exact absurd hx₁ (by decide)
                        · exact absurd hx₂ (by omega)
                        · exact absurd hx₃ (by omega)
                        · rw [show c.toNat / 16 * 16 + c.toNat % 16 = c.toNat by omega,
                            Char.ofNat_toNat]
                      rw [hstep]
                      exact ih f (c :: acc) rest hf₂
                    · have hec : escapeChar c = [c] := by
                        unfold escapeChar
                        simp [h1, h2, h3, h4, h5, h6, h7, h8]
                      rw [hec]
                      simp only [List.cons_append, List.nil_append]
                      have hstep : parseStringBody (f + 1) acc
                          (c :: (escapeChars cs ++ '"' :: rest)) =
                          parseStringBody f (c :: acc) (escapeChars cs ++ '"' :: rest) := by
                        conv_lhs => rw [parseStringBody.eq_def]
                        simp [h1, h2, h8]
                      rw [hstep]
                      exact ih f (c :: acc) rest hf₂

theorem escapeChar_ne_nil (c : Char) : escapeChar c ≠ [] := by
  unfold escapeChar
  split_ifs <;> simp

theorem length_le_escapeChars (cs : List Char) : cs.length ≤ (escapeChars cs).length := by
  induction cs with
  | nil => simp [escapeChars]
  | cons c cs ih =>
    have h := escapeChar_ne_nil c
    show (c :: cs).length ≤ (escapeChar c ++ escapeChars cs).length
    simp only [List.length_cons, List.length_append]
    have : 1 ≤ (escapeChar c).length := by
      cases hec : escapeChar c with
      | nil => exact absurd hec h
      | cons _ _ => simp
    omega

theorem setField_append (acc : List (String × JVal)) (k : String) (v : JVal)
    (h : acc.any (fun p => p.1 == k) = false) : setField acc k v = acc ++ [(k, v)] := by
  induction acc with
  | nil => rfl
  | cons kv rest ih =>
    obtain ⟨k₁, v₁⟩ := kv
    simp only [List.any_cons, Bool.or_eq_false_iff] at h
    obtain ⟨h1, h2⟩ := h
    unfold setField
    rw [if_neg (by simpa using h1), ih h2]
    simp

theorem dedup_go (l : List (String × JVal)) : ∀ acc : List (String × JVal),
    (∀ kv ∈ l, acc.any (fun p => p.1 == kv.1) = false) → nodupKeys l = true →
    l.foldl (fun acc p => setField acc p.1 p.2) acc = acc ++ l := by
  induction l with
  | nil => intro acc _ _; simp
  | cons kv rest ih =>
    intro acc hdisj hnd
    obtain ⟨k, v⟩ := kv
    simp only [nodupKeys, Bool.and_eq_true, Bool.not_eq_true'] at hnd
    obtain ⟨hk, hnd⟩ := hnd
    simp only [List.foldl_cons]
    rw [setField_append acc k v (hdisj (k, v) (by simp))]
    rw [ih (acc ++ [(k, v)]) ?_ hnd]
    · simp
    · intro kv₂ hkv₂
      rw [List.any_append]
      simp only [Bool.or_eq_false_iff]
      constructor
      · exact hdisj kv₂ (by simp [hkv₂])
      · simp only [List.any_cons, List.any_nil, Bool.or_false]
        have : kv₂.1 ≠ k := by
          intro heq
          have : rest.any (fun p => p.1 == k) = true :=
            List.any_eq_true.mpr ⟨kv₂, hkv₂, by simp [heq]⟩
          rw [this] at hk
          exact Bool.noConfusion hk
        simpa using Ne.symm this

theorem dedupFields_self (l : List (String × JVal)) (h : nodupKeys l = true) :
    dedupFields l = l := by
  unfold dedupFields
  rw [dedup_go l [] (fun kv _ => rfl) h]
  simp

mutual

theorem JszV_le_dumps : ∀ v : JVal, JszV v ≤ (dumps v).length
  | .null => by simp [JszV, dumps]
  | .bool true => by simp [JszV, dumps]
  | .bool false => by simp [JszV, dumps]
  | .num n => by
    obtain ⟨d, ds, heq, _, _⟩ := natChars_head n.natAbs
    simp only [JszV, dumps, intChars]
    split_ifs <;> simp [heq]
  | .str s => by simp [JszV, dumps, dumpsStringLit]
  | .arr l => by
    have h := JszL_le_dumpsElems l
    simp only [JszV, dumps, List.length_cons, List.length_append]
    simp only [List.length_cons, List.length_nil] at *
    omega
  | .obj l => by
    have h := JszM_le_dumpsFields l
    simp only [JszV, dumps, List.length_cons, List.length_append]
    simp only [List.length_cons, List.length_nil] at *
    omega

theorem JszL_le_dumpsElems : ∀ l : List JVal, JszL l ≤ (dumpsElems l).length + 1
  | [] => by simp [JszL, dumpsElems]
  | [x] => by
    have h := JszV_le_dumps x
    simp only [JszL, dumpsElems]
    omega
  | x :: y :: rest => by
    have h1 := JszV_le_dumps x
    have h2 := JszL_le_dumpsElems (y :: rest)
    simp only [JszL] at h2 ⊢
    simp only [dumpsElems, List.length_append, List.length_cons]
    omega

theorem JszM_le_dumpsFields : ∀ l : List (String × JVal), JszM l ≤ (dumpsFields l).length + 1
  | [] => by simp [JszM, dumpsFields]
  | [(k, v)] => by
    have h := JszV_le_dumps v
    simp only [JszM, dumpsFields, List.length_append, List.length_cons]
    omega
  | (k, v) :: m :: rest => by
    have h1 := JszV_le_dumps v
    have h2 := JszM_le_dumpsFields (m :: rest)
    simp only [JszM] at h2 ⊢
    simp only [dumpsFields, List.length_append, List.length_cons]
    omega

end

theorem intChars_head (n : Int) : ∃ c cs, intChars n = c :: cs ∧ isJsonWs c = false ∧
    c ≠ 'n' ∧ c ≠ 't' ∧ c ≠ 'f' ∧ c ≠ '"' ∧ c ≠ '[' ∧ c ≠ '\x7b' ∧
    c ≠ ']' ∧ c ≠ '\x7d' := by
  unfold intChars
  by_cases h : n < 0
  · exact ⟨'-', natChars n.natAbs, by simp [h], by decide, by decide, by decide, by decide,
      by decide, by decide, by decide, by decide, by decide⟩
  · obtain ⟨d, ds, heq, hd9, _⟩ := natChars_head n.natAbs
    refine ⟨digitChar d, ds, by simp [h, heq], ?_, ?_, ?_, ?_, ?_, ?_, ?_, ?_, ?_⟩ <;>
      (interval_cases d <;> decide)

theorem dumps_head (v : JVal) : ∃ c cs, dumps v = c :: cs ∧ isJsonWs c = false ∧
    c ≠ ']' ∧ c ≠ '\x7d' := by
  rcases v with _ | b | n | s | l | l
  case num =>
    obtain ⟨c, cs, heq, hws, _, _, _, _, _, _, h1, h2⟩ := intChars_head n
    exact ⟨c, cs, heq, hws, h1, h2⟩
  case bool =>
    rcases b with _ | _
    · refine ⟨'f', _, rfl, ?_, ?_, ?_⟩ <;> decide
    · refine ⟨'t', _, rfl, ?_, ?_, ?_⟩ <;> decide
  case null => refine ⟨'n', _, rfl, ?_, ?_, ?_⟩ <;> decide
  case str => refine ⟨'"', _, rfl, ?_, ?_, ?_⟩ <;> decide
  case arr => refine ⟨'[', _, rfl, ?_, ?_, ?_⟩ <;> decide
  case obj => refine ⟨'\x7b', _, rfl, ?_, ?_, ?_⟩ <;> decide

theorem numSafe_comma (X : List Char) : numSafe (',' :: X) :=
  ⟨by decide, by decide, by decide, by decide⟩

theorem numSafe_rbracket (X : List Char) : numSafe (']' :: X) :=
  ⟨by decide, by decide, by decide, by decide⟩

theorem numSafe_rbrace (X : List Char) : numSafe ('\x7d' :: X) :=
  ⟨by decide, by decide, by decide, by decide⟩

theorem parseVal_cons_space (fuel : Nat) (X : List Char) :
    parseVal fuel (' ' :: X) = parseVal fuel X := by
  cases fuel with
  | zero => rfl
  | succ f => rfl

theorem parseElems_cons_space (fuel : Nat) (X : List Char) :
    parseElems fuel (' ' :: X) = parseElems fuel X := by
  cases fuel with
  | zero => rfl
  | succ f =>
    show (match parseVal f (' ' :: X) with
      | none => none
      | some (v, r) => _) = _
    rw [parseVal_cons_space]
    rfl

theorem parseMembers_cons_space (fuel : Nat) (X : List Char) :
    parseMembers fuel (' ' :: X) = parseMembers fuel X := by
  cases fuel with
  | zero => rfl
  | succ f => rfl

theorem parseVal_quote (fuel : Nat) (X : List Char) :
    parseVal (fuel + 1) ('"' :: X) =
      (parseStringBody (X.length + 1) [] X).map (fun p => (JVal.str p.1, p.2)) := rfl

theorem parseVal_lbracket (fuel : Nat) (X : List Char) :
    parseVal (fuel + 1) ('[' :: X) =
      (match skipWs X with
       | ']' :: r => some (JVal.arr [], r)
       | cs₂ => (parseElems fuel cs₂).map (fun p => (JVal.arr p.1, p.2))) := rfl

theorem parseVal_lbrace (fuel : Nat) (X : List Char) :
    parseVal (fuel + 1) ('\x7b' :: X) =
      (match skipWs X with
       | '\x7d' :: r => some (JVal.obj [], r)
       | cs₂ => (parseMembers fuel cs₂).map (fun p => (JVal.obj (dedupFields p.1), p.2))) := rfl

theorem parseVal_other (fuel : Nat) (c : Char) (X : List Char)
    (hws : isJsonWs c = false) (h1 : c ≠ 'n') (h2 : c ≠ 't') (h3 : c ≠ 'f')
    (h4 : c ≠ '"') (h5 : c ≠ '[') (h6 : c ≠ '\x7b') :
    parseVal (fuel + 1) (c :: X) = parseNumToken (c :: X) := by
  conv_lhs => rw [parseVal]
  rw [skipWs_not_ws c X hws]
  simp only [if_neg h1, if_neg h2, if_neg h3, if_neg h4, if_neg h5, if_neg h6]

theorem dumpsElems_head (x : JVal) (xs : List JVal) :
    ∃ c cs, dumpsElems (x :: xs) = c :: cs ∧ isJsonWs c = false ∧ c ≠ ']' ∧ c ≠ '\x7d' := by
  obtain ⟨c, cs, heq, hws, h1, h2⟩ := dumps_head x
  cases xs with
  | nil => exact ⟨c, cs, by simp [dumpsElems, heq], hws, h1, h2⟩
  | cons y ys =>
    exact ⟨c, cs ++ ',' :: ' ' :: dumpsElems (y :: ys), by simp [dumpsElems, heq], hws, h1, h2⟩

mutual

/-- Parsing the serialization of a well-formed value, followed by any
continuation that cannot extend a number token, returns exactly the value
and the continuation. -/
theorem parseVal_dumps : ∀ (fuel : Nat) (v : JVal) (rest : List Char),
    JszV v ≤ fuel → wfV v = true → numSafe rest →
    parseVal fuel (dumps v ++ rest) = some (v, rest)
  | 0, v, _, hfuel, _, _ => by
    exfalso
    cases v <;> simp [JszV] at hfuel
  | fuel + 1, .null, rest, _, _, _ => rfl
  | fuel + 1, .bool true, rest, _, _, _ => rfl
  | fuel + 1, .bool false, rest, _, _, _ => rfl
  | fuel + 1, .num n, rest, _, _, hrest => by
    obtain ⟨c, cs, heq, hws, h1, h2, h3, h4, h5, h6, _, _⟩ := intChars_head n
    show parseVal (fuel + 1) (intChars n ++ rest) = _
    rw [heq, List.cons_append, parseVal_other fuel c _ hws h1 h2 h3 h4 h5 h6,
      ← List.cons_append, ← heq, parseNumToken_intChars n rest hrest]
  | fuel + 1, .str s, rest, _, _, _ => by
    have hshape : dumps (.str s) ++ rest = '"' :: (escapeChars s.data ++ '"' :: rest) := by
      simp [dumps, dumpsStringLit]
    rw [hshape, parseVal_quote]
    rw [parseStringBody_escape s.data _ [] rest ?_]
    · simp [string_mk_data]
    · have := length_le_escapeChars s.data
      simp only [List.length_append, List.length_cons]
      omega
  | fuel + 1, .arr [], rest, _, _, _ => rfl
  | fuel + 1, .arr (x :: xs), rest, hfuel, hwf, _ => by
    have hshape : dumps (.arr (x :: xs)) ++ rest =
        '[' :: (dumpsElems (x :: xs) ++ ']' :: rest) := by
      simp [dumps]
    rw [hshape, parseVal_lbracket]
    obtain ⟨c, cs, heq, hws, hrb, _⟩ := dumpsElems_head x xs
    rw [heq, List.cons_append, skipWs_not_ws c _ hws]
    have hfuel₂ : JszL (x :: xs) ≤ fuel := by
      simp only [JszV] at hfuel
      omega
    have hwf₂ : wfL (x :: xs) = true := by simpa [wfV] using hwf
    split
    · rename_i r heqm
      exact absurd (List.head_eq_of_cons_eq heqm) hrb
    · rw [← List.cons_append, ← heq,
        parseElems_dumps fuel (x :: xs) rest hfuel₂ hwf₂ (by simp)]
      rfl
  | fuel + 1, .obj [], rest, _, _, _ => rfl
  | fuel + 1, .obj ((k, v) :: xs), rest, hfuel, hwf, _ => by
    have hshape : dumps (.obj ((k, v) :: xs)) ++ rest =
        '\x7b' :: (dumpsFields ((k, v) :: xs) ++ '\x7d' :: rest) := by
      simp [dumps]
    rw [hshape, parseVal_lbrace]
    obtain ⟨Z, hZ⟩ : ∃ Z, dumpsFields ((k, v) :: xs) ++ '\x7d' :: rest = '"' :: Z := by
      cases xs with
      | nil =>
        exact ⟨escapeChars k.data ++ '"' :: ':' :: ' ' :: (dumps v ++ '\x7d' :: rest),
          by simp [dumpsFields, dumpsStringLit]⟩
      | cons m ms =>
        exact ⟨escapeChars k.data ++ '"' :: ':' :: ' ' ::
            (dumps v ++ ',' :: ' ' :: (dumpsFields (m :: ms) ++ '\x7d' :: rest)),
          by simp [dumpsFields, dumpsStringLit]⟩
    rw [hZ, skipWs_not_ws '"' _ (by decide)]
    have hfuel₂ : JszM ((k, v) :: xs) ≤ fuel := by
      simp only [JszV] at hfuel
      omega
    simp only [Bool.and_eq_true, wfV] at hwf
    split
    · rename_i r heqm
      exact absurd (List.head_eq_of_cons_eq heqm) (by decide)
    · rw [← hZ, parseMembers_dumps fuel ((k, v) :: xs) rest hfuel₂ hwf.2 (by simp)]
      simp [dedupFields_self _ hwf.1]

/-- Parsing the serialization of the elements of a nonempty array up to
the closing bracket returns exactly the elements. -/
theorem parseElems_dumps : ∀ (fuel : Nat) (l : List JVal) (rest : List Char),
    JszL l ≤ fuel → wfL l = true → l ≠ [] →
    parseElems fuel (dumpsElems l ++ ']' :: rest) = some (l, rest)
  | 0, l, _, hfuel, _, hne => by
    cases l with
    | nil => exact absurd rfl hne
    | cons x xs => simp [JszL] at hfuel
  | fuel + 1, [x], rest, hfuel, hwf, _ => by
    have hfuel₂ : JszV x ≤ fuel := by
      simp only [JszL] at hfuel
      omega
    have hwf₂ : wfV x = true := by simpa [wfL] using hwf
    have hpv := parseVal_dumps fuel x (']' :: rest) hfuel₂ hwf₂ (numSafe_rbracket rest)
    have hs1 := skipWs_not_ws ']' rest (by decide)
    show parseElems (fuel + 1) (dumps x ++ ']' :: rest) = _
    simp only [parseElems, hpv, hs1]
  | fuel + 1, x :: y :: xs, rest, hfuel, hwf, _ => by
    have hfuel₂ : JszV x ≤ fuel ∧ JszL (y :: xs) ≤ fuel := by
      simp only [JszL] at hfuel ⊢
      omega
    rw [wfL, Bool.and_eq_true] at hwf
    have hshape : dumpsElems (x :: y :: xs) ++ ']' :: rest =
        dumps x ++ (',' :: ' ' :: (dumpsElems (y :: xs) ++ ']' :: rest)) := by
      simp [dumpsElems]
    have hpv := parseVal_dumps fuel x
      (',' :: ' ' :: (dumpsElems (y :: xs) ++ ']' :: rest)) hfuel₂.1 hwf.1 (numSafe_comma _)
    have hs1 := skipWs_not_ws ',' (' ' :: (dumpsElems (y :: xs) ++ ']' :: rest)) (by decide)
    have hrec := parseElems_dumps fuel (y :: xs) rest hfuel₂.2 hwf.2 (by simp)
    rw [hshape]
    simp only [parseElems, hpv, hs1, parseElems_cons_space, hrec]

/-- Parsing the serialization of the members of a nonempty object up to
the closing brace returns exactly the members in order. -/
theorem parseMembers_dumps : ∀ (fuel : Nat) (l : List (String × JVal)) (rest : List Char),
    JszM l ≤ fuel → wfM l = true → l ≠ [] →
    parseMembers fuel (dumpsFields l ++ '\x7d' :: rest) = some (l, rest)
  | 0, l, _, hfuel, _, hne => by
    cases l with
    | nil => exact absurd rfl hne
    | cons kv xs => simp [JszM] at hfuel
  | fuel + 1, [(k, v)], rest, hfuel, hwf, _ => by
    have hfuel₂ : JszV v ≤ fuel := by
      simp only [JszM] at hfuel
      omega
    have hwf₂ : wfV v = true := by simpa [wfM] using hwf
    have hshape : dumpsFields [(k, v)] ++ '\x7d' :: rest =
        '"' :: (escapeChars k.data ++ '"' :: ':' :: ' ' :: (dumps v ++ '\x7d' :: rest)) := by
      simp [dumpsFields, dumpsStringLit]
    have hps := parseStringBody_escape k.data
      ((escapeChars k.data ++ '"' :: ':' :: ' ' :: (dumps v ++ '\x7d' :: rest)).length + 1) []
      (':' :: ' ' :: (dumps v ++ '\x7d' :: rest))
      (by
        have := length_le_escapeChars k.data
        simp only [List.length_append, List.length_cons]
        omega)
    have hpv := parseVal_dumps fuel v ('\x7d' :: rest) hfuel₂ hwf₂ (numSafe_rbrace rest)
    have hs1 := skipWs_not_ws '"'
      (escapeChars k.data ++ '"' :: ':' :: ' ' :: (dumps v ++ '\x7d' :: rest)) (by decide)
    have hs2 := skipWs_not_ws ':' (' ' :: (dumps v ++ '\x7d' :: rest)) (by decide)
    have hs3 := skipWs_not_ws '\x7d' rest (by decide)
    rw [hshape]
    simp only [parseMembers, hs1, hps, hs2, parseVal_cons_space, hpv, hs3,
      List.reverse_nil, List.nil_append, string_mk_data]
  | fuel + 1, (k, v) :: m :: xs, rest, hfuel, hwf, _ => by
    have hfuel₂ : JszV v ≤ fuel ∧ JszM (m :: xs) ≤ fuel := by
      simp only [JszM] at hfuel ⊢
      omega
    rw [wfM, Bool.and_eq_true] at hwf
    have hshape : dumpsFields ((k, v) :: m :: xs) ++ '\x7d' :: rest =
        '"' :: (escapeChars k.data ++ '"' :: ':' :: ' ' ::
          (dumps v ++ ',' :: ' ' :: (dumpsFields (m :: xs) ++ '\x7d' :: rest))) := by
      simp [dumpsFields, dumpsStringLit]
    have hps := parseStringBody_escape k.data
      ((escapeChars k.data ++ '"' :: ':' :: ' ' ::
        (dumps v ++ ',' :: ' ' :: (dumpsFields (m :: xs) ++ '\x7d' :: rest))).length + 1) []
      (':' :: ' ' :: (dumps v ++ ',' :: ' ' :: (dumpsFields (m :: xs) ++ '\x7d' :: rest)))
      (by
        have := length_le_escapeChars k.data
        simp only [List.length_append, List.length_cons]
        omega)
    have hpv := parseVal_dumps fuel v
      (',' :: ' ' :: (dumpsFields (m :: xs) ++ '\x7d' :: rest)) hfuel₂.1 hwf.1 (numSafe_comma _)
    have hrec := parseMembers_dumps fuel (m :: xs) rest hfuel₂.2 hwf.2 (by simp)
    have hs1 := skipWs_not_ws '"'
      (escapeChars k.data ++ '"' :: ':' :: ' ' ::
        (dumps v ++ ',' :: ' ' :: (dumpsFields (m :: xs) ++ '\x7d' :: rest))) (by decide)
    have hs2 := skipWs_not_ws ':'
      (' ' :: (dumps v ++ ',' :: ' ' :: (dumpsFields (m :: xs) ++ '\x7d' :: rest))) (by decide)
    have hs3 := skipWs_not_ws ','
      (' ' :: (dumpsFields (m :: xs) ++ '\x7d' :: rest)) (by decide)
    rw [hshape]
    simp only [parseMembers, hs1, hps, hs2, parseVal_cons_space, hpv, hs3,
      parseMembers_cons_space, hrec, List.reverse_nil, List.nil_append, string_mk_data]

end

/-- Re-parsing the serialization of a well-formed value gives it back. -/
theorem json_loads_dumps (v : JVal) (h : wfV v = true) : json_loads (dumpsStr v) = some v := by
  have hp := parseVal_dumps ((dumps v).length + 1) v []
    (Nat.le_succ_of_le (JszV_le_dumps v)) h trivial
  rw [List.append_nil] at hp
  show (match parseVal ((dumps v).length + 1) (dumps v) with
    | some (v₂, rest) => if skipWs rest = [] then some v₂ else none
    | none => none) = some v
  rw [hp]
  rfl

theorem jGet_eq_none_iff (l : List (String × JVal)) (k : String) :
    jGet l k = none ↔ l.any (fun p => p.1 == k) = false := by
  induction l with
  | nil => simp [jGet]
  | cons p rest ih =>
    obtain ⟨k₁, v₁⟩ := p
    by_cases hk : k₁ = k
    · subst hk; simp [jGet]
    · simp [jGet, hk, ih]

theorem any_key_setField (l : List (String × JVal)) (k k₀ : String) (v : JVal) :
    ((setField l k v).any (fun p => p.1 == k₀)) =
      (l.any (fun p => p.1 == k₀) || k == k₀) := by
  induction l with
  | nil => simp [setField]
  | cons p rest ih =>
    obtain ⟨k₁, v₁⟩ := p
    by_cases hk : k₁ = k
    · subst hk
      rw [setField, if_pos rfl]
      simp only [List.any_cons]
      cases h₁ : (k₁ == k₀) <;> simp
    · rw [setField, if_neg hk]
      simp only [List.any_cons, ih, Bool.or_assoc]

theorem nodup_setField (l : List (String × JVal)) (k : String) (v : JVal)
    (h : nodupKeys l = true) : nodupKeys (setField l k v) = true := by
  induction l with
  | nil => rfl
  | cons p rest ih =>
    obtain ⟨k₁, v₁⟩ := p
    rw [nodupKeys, Bool.and_eq_true] at h
    obtain ⟨h₁, h₂⟩ := h
    by_cases hk : k₁ = k
    · subst hk
      rw [setField, if_pos rfl, nodupKeys, Bool.and_eq_true]
      exact ⟨h₁, h₂⟩
    · rw [setField, if_neg hk, nodupKeys, Bool.and_eq_true]
      have h₁a : rest.any (fun p => p.1 == k₁) = false := by simpa using h₁
      have hkk : (k == k₁) = false := by simp [Ne.symm hk]
      exact ⟨by simp [any_key_setField, h₁a, hkk], ih h₂⟩

theorem wfM_setField (l : List (String × JVal)) (k : String) (v : JVal)
    (hv : wfV v = true) (h : wfM l = true) : wfM (setField l k v) = true := by
  induction l with
  | nil =>
    rw [setField, wfM, Bool.and_eq_true]
    exact ⟨hv, rfl⟩
  | cons p rest ih =>
    obtain ⟨k₁, v₁⟩ := p
    rw [wfM, Bool.and_eq_true] at h
    by_cases hk : k₁ = k
    · subst hk
      rw [setField, if_pos rfl, wfM, Bool.and_eq_true]
      exact ⟨hv, h.2⟩
    · rw [setField, if_neg hk, wfM, Bool.and_eq_true]
      exact ⟨h.1, ih h.2⟩

theorem dedup_foldl_wf (ps : List (String × JVal)) : ∀ acc : List (String × JVal),
    nodupKeys acc = true → wfM acc = true → wfM ps = true →
    nodupKeys (ps.foldl (fun acc p => setField acc p.1 p.2) acc) = true ∧
    wfM (ps.foldl (fun acc p => setField acc p.1 p.2) acc) = true := by
  induction ps with
  | nil => intro acc h₁ h₂ _; exact ⟨h₁, h₂⟩
  | cons p rest ih =>
    intro acc h₁ h₂ h₃
    rw [wfM, Bool.and_eq_true] at h₃
    rw [List.foldl_cons]
    exact ih _ (nodup_setField _ _ _ h₁) (wfM_setField _ _ _ h₃.1 h₂) h₃.2

/-- Merging raw members into a Python dict yields duplicate-free keys and
preserves well-formed values. -/
theorem dedupFields_wf (ps : List (String × JVal)) (h : wfM ps = true) :
    nodupKeys (dedupFields ps) = true ∧ wfM (dedupFields ps) = true :=
  dedup_foldl_wf ps [] rfl rfl h

theorem parseNumToken_shape (cs : List Char) (v : JVal) (r : List Char)
    (h : parseNumToken cs = some (v, r)) : ∃ n : Int, v = .num n := by
  unfold parseNumToken at h
  split at h <;>
    (simp only [Option.map_eq_some'] at h
     obtain ⟨⟨n₁, r₁⟩, _, heq⟩ := h
     cases heq
     exact ⟨_, rfl⟩)

mutual

/-- Every value `parseVal` returns is well-formed: object keys are
duplicate-free at every level (duplicate raw members are merged by
`dedupFields`, as Python's dict building does). -/
theorem parseVal_wf : ∀ (fuel : Nat) (cs : List Char) (v : JVal) (r : List Char),
    parseVal fuel cs = some (v, r) → wfV v = true
  | 0, cs, v, r => by
    intro h
    rw [parseVal] at h
    exact Option.noConfusion h
  | fuel + 1, cs, v, r => by
    intro h
    rw [parseVal] at h
    split at h
    · exact Option.noConfusion h
    · split_ifs at h with h1 h2 h3 h4 h5 h6
      · simp only [Option.map_eq_some'] at h
        obtain ⟨r₂, _, heq⟩ := h
        cases heq
        rfl
      · simp only [Option.map_eq_some'] at h
        obtain ⟨r₂, _, heq⟩ := h
        cases heq
        rfl
      · simp only [Option.map_eq_some'] at h
        obtain ⟨r₂, _, heq⟩ := h
        cases heq
        rfl
      · simp only [Option.map_eq_some'] at h
        obtain ⟨⟨s, r₂⟩, _, heq⟩ := h
        cases heq
        rfl
      · split at h
        · cases h
          rfl
        · simp only [Option.map_eq_some'] at h
          obtain ⟨⟨l, r₂⟩, hp, heq⟩ := h
          cases heq
          have := parseElems_wf fuel _ _ _ hp
          simpa [wfV] using this
      · split at h
        · cases h
          rfl
        · simp only [Option.map_eq_some'] at h
          obtain ⟨⟨ps, r₂⟩, hp, heq⟩ := h
          cases heq
          have hm := parseMembers_wf fuel _ _ _ hp
          have hd := dedupFields_wf _ hm
          simp [wfV, hd.1, hd.2]
      · obtain ⟨n, rfl⟩ := parseNumToken_shape _ _ _ h
        rfl

/-- Every element list `parseElems` returns is element-wise well-formed. -/
theorem parseElems_wf : ∀ (fuel : Nat) (cs : List Char) (l : List JVal) (r : List Char),
    parseElems fuel cs = some (l, r) → wfL l = true
  | 0, cs, l, r => by
    intro h
    rw [parseElems] at h
    exact Option.noConfusion h
  | fuel + 1, cs, l, r => by
    intro h
    rw [parseElems] at h
    split at h
    · exact Option.noConfusion h
    · rename_i v r₁ hv
      split at h
      · split at h
        · exact Option.noConfusion h
        · rename_i vs r₃ hrec
          cases h
          have hw₁ := parseVal_wf fuel _ _ _ hv
          have hw₂ := parseElems_wf fuel _ _ _ hrec
          simp [wfL, hw₁, hw₂]
      · cases h
        have hw₁ := parseVal_wf fuel _ _ _ hv
        simp [wfL, hw₁]
      · exact Option.noConfusion h

/-- Every raw member list `parseMembers` returns has well-formed values. -/
theorem parseMembers_wf : ∀ (fuel : Nat) (cs : List Char) (l : List (String × JVal))
    (r : List Char), parseMembers fuel cs = some (l, r) → wfM l = true
  | 0, cs, l, r => by
    intro h
    rw [parseMembers] at h
    exact Option.noConfusion h
  | fuel + 1, cs, l, r => by
    intro h
    rw [parseMembers] at h
    split at h
    · split at h
      · exact Option.noConfusion h
      · rename_i k r₂ hk
        split at h
        · split at h
          · exact Option.noConfusion h
          · rename_i v r₄ hv
            split at h
            · split at h
              · exact Option.noConfusion h
              · rename_i ps r₆ hrec
                cases h
                have hw₁ := parseVal_wf fuel _ _ _ hv
                have hw₂ := parseMembers_wf fuel _ _ _ hrec
                simp [wfM, hw₁, hw₂]
            · cases h
              have hw₁ := parseVal_wf fuel _ _ _ hv
              simp [wfM, hw₁]
            · exact Option.noConfusion h
        · exact Option.noConfusion h
    · exact Option.noConfusion h

end

/-- Every value `json.loads` accepts is well-formed (its object keys are
duplicate-free at every level). -/
theorem json_loads_wf (s : String) (v : JVal) (h : json_loads s = some v) : wfV v = true := by
  unfold json_loads at h
  split at h
  · rename_i p heq
    split at h
    · cases h
      exact parseVal_wf _ _ _ _ heq
    · exact Option.noConfusion h
  · exact Option.noConfusion h

/-! Boundary characters of a serialized value: `dumps` output starts and
ends with non-whitespace, so `line.strip()` leaves a stored line
unchanged. -/

theorem pyIsSpaceCh_toNat (c : Char) (h : pyIsSpaceCh c = true) :
    c.toNat = 32 ∨ c.toNat = 9 ∨ c.toNat = 10 ∨ c.toNat = 13 ∨ c.toNat = 11 ∨ c.toNat = 12 ∨
    (28 ≤ c.toNat ∧ c.toNat ≤ 31) ∨ c.toNat = 133 ∨ c.toNat = 160 := by
  rw [pyIsSpaceCh] at h
  simp only [Bool.or_eq_true, Bool.and_eq_true, decide_eq_true_eq] at h
  rcases h with ((((((((h | h) | h) | h) | h) | h) | h) | h) | h)
  all_goals first
    | (subst h; decide)
    | omega

theorem isDigitCh_not_space (c : Char) (h : isDigitCh c = true) : pyIsSpaceCh c = false := by
  cases hs : pyIsSpaceCh c
  · rfl
  · exfalso
    have h₂ := pyIsSpaceCh_toNat c hs
    simp only [isDigitCh, Bool.and_eq_true, decide_eq_true_eq] at h
    omega

theorem mem_of_getLast : ∀ (l : List Char) (c : Char), l.getLast? = some c → c ∈ l
  | [], c => by
    intro h
    exact Option.noConfusion h
  | [a], c => by
    intro h
    rw [List.getLast?_singleton] at h
    cases h
    exact List.mem_singleton_self a
  | a :: b :: l, c => by
    intro h
    rw [List.getLast?_cons_cons] at h
    exact List.mem_cons_of_mem a (mem_of_getLast (b :: l) c h)

theorem dumps_last_not_space (v : JVal) : ∀ c, (dumps v).getLast? = some c →
    pyIsSpaceCh c = false := by
  intro c h
  cases v with
  | null =>
    rw [show (dumps JVal.null).getLast? = some 'l' from rfl] at h
    cases h
    decide
  | bool b =>
    cases b with
    | true =>
      rw [show (dumps (JVal.bool true)).getLast? = some 'e' from rfl] at h
      cases h
      decide
    | false =>
      rw [show (dumps (JVal.bool false)).getLast? = some 'e' from rfl] at h
      cases h
      decide
  | str s =>
    have hsh : dumps (JVal.str s) = ('"' :: escapeChars s.data) ++ ['"'] := by
      simp [dumps, dumpsStringLit]
    rw [hsh, List.getLast?_concat] at h
    cases h
    decide
  | arr l =>
    have hsh : dumps (JVal.arr l) = ('[' :: dumpsElems l) ++ [']'] := by simp [dumps]
    rw [hsh, List.getLast?_concat] at h
    cases h
    decide
  | obj l =>
    have hsh : dumps (JVal.obj l) = ('\x7b' :: dumpsFields l) ++ ['\x7d'] := by simp [dumps]
    rw [hsh, List.getLast?_concat] at h
    cases h
    decide
  | num n =>
    have hmem : c ∈ intChars n := mem_of_getLast _ _ (by simpa [dumps] using h)
    by_cases hn : n < 0
    · rw [intChars, if_pos hn] at hmem
      rcases List.mem_cons.mp hmem with rfl | hmem₂
      · decide
      · exact isDigitCh_not_space _ (natChars_digits _ _ hmem₂)
    · rw [intChars, if_neg hn] at hmem
      exact isDigitCh_not_space _ (natChars_digits _ _ hmem)

theorem dumps_head_not_space (v : JVal) : ∀ c, (dumps v).head? = some c →
    pyIsSpaceCh c = false := by
  intro c h
  cases v with
  | null =>
    rw [show (dumps JVal.null).head? = some 'n' from rfl] at h
    cases h
    decide
  | bool b =>
    cases b with
    | true =>
      rw [show (dumps (JVal.bool true)).head? = some 't' from rfl] at h
      cases h
      decide
    | false =>
      rw [show (dumps (JVal.bool false)).head? = some 'f' from rfl] at h
      cases h
      decide
  | str s =>
    rw [show (dumps (JVal.str s)).head? = some '"' from rfl] at h
    cases h
    decide
  | arr l =>
    rw [show (dumps (JVal.arr l)).head? = some '[' from rfl] at h
    cases h
    decide
  | obj l =>
    rw [show (dumps (JVal.obj l)).head? = some '\x7b' from rfl] at h
    cases h
    decide
  | num n =>
    by_cases hn : n < 0
    · have hsh : dumps (JVal.num n) = '-' :: natChars n.natAbs := by
        simp [dumps, intChars, hn]
      rw [hsh, List.head?_cons] at h
      cases h
      decide
    · obtain ⟨d, ds, heq, hd9, _⟩ := natChars_head n.natAbs
      have hsh : dumps (JVal.num n) = digitChar d :: ds := by
        simp [dumps, intChars, hn, heq]
      rw [hsh, List.head?_cons] at h
      cases h
      exact isDigitCh_not_space _ (isDigitCh_digitChar d hd9)

/-- `str.strip()` is the identity on a string whose first and last
characters are not Python whitespace. -/
theorem pyStrip_eq_of_ends (l : List Char)
    (h₀ : ∀ c, l.head? = some c → pyIsSpaceCh c = false)
    (h₁ : ∀ c, l.getLast? = some c → pyIsSpaceCh c = false) :
    pyStrip (String.mk l) = String.mk l := by
  cases l with
  | nil => rfl
  | cons a as =>
    have ha := h₀ a rfl
    rw [pyStrip]
    show String.mk (((List.dropWhile pyIsSpaceCh (a :: as)).reverse.dropWhile
      pyIsSpaceCh).reverse) = String.mk (a :: as)
    rw [List.dropWhile_cons, if_neg (by simp [ha])]
    rcases hrev : (a :: as).reverse with _ | ⟨b, bs⟩
    · exact absurd hrev (by simp)
    · have hb : pyIsSpaceCh b = false := h₁ b (by rw [← List.head?_reverse, hrev]; rfl)
      rw [List.dropWhile_cons, if_neg (by simp [hb]), ← hrev, List.reverse_reverse]

/-- A stored line (the serialization of an entry) is unchanged by
`line.strip()`. -/
theorem pyStrip_dumpsStr (v : JVal) : pyStrip (dumpsStr v) = dumpsStr v :=
  pyStrip_eq_of_ends (dumps v) (dumps_head_not_space v) (dumps_last_not_space v)

theorem dumpsStr_ne_empty (v : JVal) : dumpsStr v ≠ "" := by
  obtain ⟨c, cs, heq, _⟩ := dumps_head v
  intro hcon
  rw [dumpsStr, heq] at hcon
  exact List.noConfusion (congrArg String.data hcon)

/-! The retention purge: provenance, totality and idempotence. -/

theorem readLogs_cons_blank (line : String) (rest : List String) (hl : pyStrip line = "") :
    readLogs (line :: rest) = readLogs rest := by
  rw [readLogs, readLogs, List.filterMap_cons]
  simp [hl]

theorem readLogs_cons_bad (line : String) (rest : List String) (hl : pyStrip line ≠ "")
    (hj : json_loads (pyStrip line) = none) :
    readLogs (line :: rest) = readLogs rest := by
  rw [readLogs, readLogs, List.filterMap_cons]
  simp [hl, hj]

theorem readLogs_cons_ok (line : String) (rest : List String) (e : JVal)
    (hl : pyStrip line ≠ "") (hj : json_loads (pyStrip line) = some e) :
    readLogs (line :: rest) = e :: readLogs rest := by
  rw [readLogs, readLogs, List.filterMap_cons]
  simp [hl, hj]

/-- Every entry the purge keeps was parsed from some line, is
well-formed, and passed the retention test. -/
theorem purgeEntries_spec (now : Int) : ∀ (lines : List String) (kept : List JVal),
    purgeEntries now lines = some kept → ∀ e ∈ kept,
      wfV e = true ∧ ∃ ts, entryEffTs now e = some ts ∧ keepEntry now ts = true := by
  intro lines
  induction lines with
  | nil =>
    intro kept h e he
    rw [purgeEntries] at h
    cases h
    exact absurd he (List.not_mem_nil e)
  | cons line rest ih =>
    intro kept h e he
    rw [purgeEntries] at h
    by_cases hl : pyStrip line = ""
    · rw [if_pos hl] at h
      exact ih kept h e he
    · rw [if_neg hl] at h
      rcases hj : json_loads (pyStrip line) with _ | entry
      · simp only [hj] at h
        exact ih kept h e he
      · simp only [hj] at h
        rcases heff : entryEffTs now entry with _ | ts
        · simp only [heff] at h
          exact Option.noConfusion h
        · simp only [heff] at h
          rcases hr : purgeEntries now rest with _ | keptRest
          · simp only [hr] at h
            exact Option.noConfusion h
          · simp only [hr] at h
            by_cases hk : keepEntry now ts = true
            · rw [if_pos hk] at h
              cases h
              rcases List.mem_cons.mp he with rfl | he₂
              · exact ⟨json_loads_wf _ _ hj, ts, heff, hk⟩
              · exact ih keptRest hr e he₂
            · rw [if_neg hk] at h
              cases h
              exact ih _ hr e he

/-- The kept entries are a sublist of the parsed entries of the file, in
order: malformed and blank lines contribute nothing to either side. -/
theorem purgeEntries_sublist (now : Int) : ∀ (lines : List String) (kept : List JVal),
    purgeEntries now lines = some kept → kept.Sublist (readLogs lines) := by
  intro lines
  induction lines with
  | nil =>
    intro kept h
    rw [purgeEntries] at h
    cases h
    exact List.nil_sublist _
  | cons line rest ih =>
    intro kept h
    rw [purgeEntries] at h
    by_cases hl : pyStrip line = ""
    · rw [if_pos hl] at h
      rw [readLogs_cons_blank line rest hl]
      exact ih kept h
    · rw [if_neg hl] at h
      rcases hj : json_loads (pyStrip line) with _ | entry
      · simp only [hj] at h
        rw [readLogs_cons_bad line rest hl hj]
        exact ih kept h
      · simp only [hj] at h
        rw [readLogs_cons_ok line rest entry hl hj]
        rcases heff : entryEffTs now entry with _ | ts
        · simp only [heff] at h
          exact Option.noConfusion h
        · simp only [heff] at h
          rcases hr : purgeEntries now rest with _ | keptRest
          · simp only [hr] at h
            exact Option.noConfusion h
          · simp only [hr] at h
            by_cases hk : keepEntry now ts = true
            · rw [if_pos hk] at h
              cases h
              exact (ih keptRest hr).cons₂ entry
            · rw [if_neg hk] at h
              cases h
              exact (ih _ hr).cons entry

/-- Reading back a file of re-serialized well-formed entries returns
exactly those entries. -/
theorem readLogs_map_dumpsStr : ∀ kept : List JVal, (∀ e ∈ kept, wfV e = true) →
    readLogs (kept.map dumpsStr) = kept := by
  intro kept
  induction kept with
  | nil => intro _; rfl
  | cons e rest ih =>
    intro h
    have hwfe := h e (List.mem_cons_self e rest)
    have h₁ : pyStrip (dumpsStr e) = dumpsStr e := pyStrip_dumpsStr e
    have h₂ : json_loads (pyStrip (dumpsStr e)) = some e := by
      rw [h₁]
      exact json_loads_dumps e hwfe
    rw [List.map_cons, readLogs_cons_ok _ _ _ (by rw [h₁]; exact dumpsStr_ne_empty e) h₂,
      ih (fun x hx => h x (List.mem_cons_of_mem e hx))]

/-- Purging a file of re-serialized well-formed entries that all pass the
retention test keeps all of them unchanged. -/
theorem purgeEntries_roundtrip (now : Int) : ∀ kept : List JVal,
    (∀ e ∈ kept, wfV e = true ∧ ∃ ts, entryEffTs now e = some ts ∧ keepEntry now ts = true) →
    purgeEntries now (kept.map dumpsStr) = some kept := by
  intro kept
  induction kept with
  | nil => intro _; rfl
  | cons e rest ih =>
    intro h
    obtain ⟨hwfe, ts, hts, hkeep⟩ := h e (List.mem_cons_self e rest)
    rw [List.map_cons, purgeEntries]
    simp only [pyStrip_dumpsStr e, json_loads_dumps e hwfe, hts,
      ih (fun x hx => h x (List.mem_cons_of_mem e hx))]
    rw [if_neg (dumpsStr_ne_empty e), if_pos hkeep]

/-- The purge distributes over concatenated line lists. -/
theorem purgeEntries_append (now : Int) : ∀ l₁ l₂ : List String,
    purgeEntries now (l₁ ++ l₂) =
      (purgeEntries now l₁).bind (fun a => (purgeEntries now l₂).map (fun b => a ++ b)) := by
  intro l₁ l₂
  induction l₁ with
  | nil =>
    cases hp : purgeEntries now l₂ <;> simp [purgeEntries, hp]
  | cons line rest ih =>
    rw [List.cons_append, purgeEntries, purgeEntries]
    by_cases hl : pyStrip line = ""
    · rw [if_pos hl, if_pos hl, ih]
    · rw [if_neg hl, if_neg hl]
      rcases hj : json_loads (pyStrip line) with _ | entry
      · simp only [hj]
        exact ih
      · simp only [hj]
        rcases heff : entryEffTs now entry with _ | ts
        · simp [heff]
        · simp only [heff]
          rcases hr : purgeEntries now rest with _ | keptRest
          · simp [ih, hr]
          · simp only [ih, hr]
            cases hp : purgeEntries now l₂ <;> simp [hp]
            cases keepEntry now ts <;> simp

/-- An object entry whose `timestamp` field is absent or a string has an
effective timestamp without raising. -/
theorem safe_entryEffTs (now : Int) (fields : List (String × JVal))
    (h : jGet fields "timestamp" = none ∨ ∃ s, jGet fields "timestamp" = some (JVal.str s)) :
    ∃ ts, entryEffTs now (JVal.obj fields) = some ts := by
  rw [entryEffTs]
  rcases h with h | ⟨s, h⟩
  · simp only [h]
    exact ⟨now, rfl⟩
  · simp only [h]
    by_cases hs : pyTruthy (JVal.str s) = true
    · simp only [hs, if_true]
      rcases hp : purgeParseTs s with _ | dt <;> simp [hp]
    · simp [hs]

/-- On a file whose parseable lines are all objects with absent or string
timestamps, the purge raises no exception. -/
theorem purgeEntries_total (now : Int) : ∀ lines : List String,
    (∀ line ∈ lines, ∀ e, json_loads (pyStrip line) = some e →
      ∃ fields, e = JVal.obj fields ∧
        (jGet fields "timestamp" = none ∨ ∃ s, jGet fields "timestamp" = some (JVal.str s))) →
    ∃ kept, purgeEntries now lines = some kept := by
  intro lines
  induction lines with
  | nil => intro _; exact ⟨[], rfl⟩
  | cons line rest ih =>
    intro h
    obtain ⟨kept, hk⟩ := ih (fun l hl e he => h l (List.mem_cons_of_mem line hl) e he)
    rw [purgeEntries]
    by_cases hl : pyStrip line = ""
    · rw [if_pos hl]
      exact ⟨kept, hk⟩
    · rw [if_neg hl]
      rcases hj : json_loads (pyStrip line) with _ | entry
      · simp only [hj]
        exact ⟨kept, hk⟩
      · simp only [hj]
        obtain ⟨fields, rfl, hsafe⟩ := h line (List.mem_cons_self line rest) entry hj
        obtain ⟨ts, hts⟩ := safe_entryEffTs now fields hsafe
        simp only [hts, hk]
        exact ⟨_, rfl⟩

/-! Calendar arithmetic: stepping a valid civil date by one day moves the
proleptic-Gregorian day number by one, so the civil shift performed by
`astimezone` preserves the instant. -/

theorem isLeap_iff (y : Int) :
    isLeap y = true ↔ ((y % 4 = 0 ∧ y % 100 ≠ 0) ∨ y % 400 = 0) := by
  simp [isLeap]

theorem nextDay_days (y : Int) (m d : Nat) (h : DateValid y m d) :
    daysFromCivil (nextDay (y, m, d)).1 (nextDay (y, m, d)).2.1 (nextDay (y, m, d)).2.2 =
      daysFromCivil y m d + 1 := by
  obtain ⟨hm1, hm2, hd1, hd2⟩ := h
  by_cases hlp : isLeap y = true
  · have harith := (isLeap_iff y).mp hlp
    interval_cases m <;>
      (unfold nextDay
       norm_num [daysInMonth, hlp] at hd2 ⊢
       split_ifs <;> (simp only [daysFromCivil]; push_cast; (try norm_num); (try omega)))
  · have harith : ¬ ((y % 4 = 0 ∧ y % 100 ≠ 0) ∨ y % 400 = 0) := by
      rw [← isLeap_iff y]
      simpa using hlp
    rw [Bool.not_eq_true] at hlp
    interval_cases m <;>
      (unfold nextDay
       norm_num [daysInMonth, hlp] at hd2 ⊢
       split_ifs <;> (simp only [daysFromCivil]; push_cast; (try norm_num); (try omega)))

theorem nextDay_valid (y : Int) (m d : Nat) (h : DateValid y m d) :
    DateValid (nextDay (y, m, d)).1 (nextDay (y, m, d)).2.1 (nextDay (y, m, d)).2.2 := by
  obtain ⟨hm1, hm2, hd1, hd2⟩ := h
  by_cases hlp : isLeap y = true
  · interval_cases m <;>
      (unfold nextDay
       norm_num [daysInMonth, hlp] at hd2 ⊢
       split_ifs <;> (norm_num [DateValid, daysInMonth, hlp]; try omega))
  · rw [Bool.not_eq_true] at hlp
    interval_cases m <;>
      (unfold nextDay
       norm_num [daysInMonth, hlp] at hd2 ⊢
       split_ifs <;> (norm_num [DateValid, daysInMonth, hlp]; try omega))

theorem prevDay_days (y : Int) (m d : Nat) (h : DateValid y m d) :
    daysFromCivil (prevDay (y, m, d)).1 (prevDay (y, m, d)).2.1 (prevDay (y, m, d)).2.2 =
      daysFromCivil y m d - 1 := by
  obtain ⟨hm1, hm2, hd1, hd2⟩ := h
  by_cases hlp : isLeap y = true
  · have harith := (isLeap_iff y).mp hlp
    interval_cases m <;>
      (unfold prevDay
       norm_num [daysInMonth, hlp] at hd2 ⊢
       split_ifs <;> (simp only [daysFromCivil]; push_cast; (try norm_num); (try omega)))
  · have harith : ¬ ((y % 4 = 0 ∧ y % 100 ≠ 0) ∨ y % 400 = 0) := by
      rw [← isLeap_iff y]
      simpa using hlp
    rw [Bool.not_eq_true] at hlp
    interval_cases m <;>
      (unfold prevDay
       norm_num [daysInMonth, hlp] at hd2 ⊢
       split_ifs <;> (simp only [daysFromCivil]; push_cast; (try norm_num); (try omega)))

theorem prevDay_valid (y : Int) (m d : Nat) (h : DateValid y m d) :
    DateValid (prevDay (y, m, d)).1 (prevDay (y, m, d)).2.1 (prevDay (y, m, d)).2.2 := by
  obtain ⟨hm1, hm2, hd1, hd2⟩ := h
  by_cases hlp : isLeap y = true
  · interval_cases m <;>
      (unfold prevDay
       norm_num [daysInMonth, hlp] at hd2 ⊢
       split_ifs <;> (norm_num [DateValid, daysInMonth, hlp, isLeap_iff]; try omega))
  · rw [Bool.not_eq_true] at hlp
    interval_cases m <;>
      (unfold prevDay
       norm_num [daysInMonth, hlp] at hd2 ⊢
       split_ifs <;> (norm_num [DateValid, daysInMonth, hlp, isLeap_iff]; try omega))

theorem applyDays_correct (k : Int) (p : Int × Nat × Nat) (h : DateValid p.1 p.2.1 p.2.2) :
    daysFromCivil (applyDays p k).1 (applyDays p k).2.1 (applyDays p k).2.2 =
      daysFromCivil p.1 p.2.1 p.2.2 + k ∧
    DateValid (applyDays p k).1 (applyDays p k).2.1 (applyDays p k).2.2 := by
  cases k with
  | ofNat n =>
    show daysFromCivil (nextDay^[n] p).1 (nextDay^[n] p).2.1 (nextDay^[n] p).2.2 = _ ∧ _
    induction n generalizing p with
    | zero => simpa using h
    | succ n ih =>
      rw [Function.iterate_succ_apply]
      have hstep := nextDay_days p.1 p.2.1 p.2.2 h
      have hval := nextDay_valid p.1 p.2.1 p.2.2 h
      obtain ⟨ih1, ih2⟩ := ih (nextDay p) hval
      refine ⟨?_, ih2⟩
      rw [ih1, hstep]
      simp only [Int.ofNat_eq_coe]
      push_cast
      ring
  | negSucc n =>
    show daysFromCivil (prevDay^[n + 1] p).1 (prevDay^[n + 1] p).2.1 (prevDay^[n + 1] p).2.2 =
        _ ∧ _
    induction n generalizing p with
    | zero =>
      rw [Function.iterate_one]
      have hstep := prevDay_days p.1 p.2.1 p.2.2 h
      have hval := prevDay_valid p.1 p.2.1 p.2.2 h
      exact ⟨by rw [hstep]; simp [Int.negSucc_eq]; ring, hval⟩
    | succ n ih =>
      rw [Function.iterate_succ_apply]
      have hstep := prevDay_days p.1 p.2.1 p.2.2 h
      have hval := prevDay_valid p.1 p.2.1 p.2.2 h
      obtain ⟨ih1, ih2⟩ := ih (prevDay p) hval
      refine ⟨?_, ih2⟩
      rw [ih1, hstep]
      simp only [Int.negSucc_eq]
      push_cast
      ring

/-- The civil shift performed by `astimezone(IST)` preserves the instant:
the IST-rendered date-time denotes the same epoch second. -/
theorem epochSecs_astimezoneIST (dt : PyDT) (h : dt.valid) :
    epochSecs (astimezoneIST dt) = epochSecs dt := by
  obtain ⟨hy1, hy2, hm1, hm2, hd1, hd2, hh, hmi, hs⟩ := h
  have hdv : DateValid dt.year dt.month dt.day := ⟨hm1, hm2, hd1, hd2⟩
  obtain ⟨hdays, _⟩ := applyDays_correct
    (((dt.hour : Int) * 60 + dt.minute + (IST_OFFSET_MIN - dt.tz.getD 0)) / 1440)
    (dt.year, dt.month, dt.day) hdv
  unfold astimezoneIST shiftCivilMinutes epochSecs
  unfold IST_OFFSET_MIN at *
  (try dsimp only at hdays ⊢)
  (try simp only [Option.getD_some] at hdays ⊢)
  omega

/-- Everything `fromisoformat` accepts satisfies the `datetime` ranges. -/
theorem isoParse_valid (s : String) (dt : PyDT) (h : isoParse s = some dt) : dt.valid := by
  unfold isoParse at h
  (try dsimp only at h)
  repeat' split at h
  all_goals
    first
    | exact Option.noConfusion h
    | (injection h with h₂; subst h₂; assumption)

/-- Everything `strptime` accepts satisfies the `datetime` ranges. -/
theorem strptimeYmdHms_valid (sep : Char) (s : String) (dt : PyDT)
    (h : strptimeYmdHms sep s = some dt) : dt.valid := by
  unfold strptimeYmdHms at h
  (try dsimp only at h)
  repeat' split at h
  all_goals
    first
    | exact Option.noConfusion h
    | (injection h with h₂; subst h₂; assumption)

theorem withTz_valid (dt : PyDT) (o : Int) : (withTz dt o).valid ↔ dt.valid := Iff.rfl

theorem fmtParseTs_valid (s : String) (dt : PyDT) (h : fmtParseTs s = some dt) : dt.valid := by
  unfold fmtParseTs at h
  repeat' split at h
  · exact isoParse_valid s dt (by simp_all)
  · exact strptimeYmdHms_valid 'T' s dt (by simp_all)
  · exact strptimeYmdHms_valid ' ' s dt h

theorem purgeParseTs_valid (s : String) (dt : PyDT) (h : purgeParseTs s = some dt) : dt.valid := by
  unfold purgeParseTs at h
  cases hiso : isoParse s with
  | some dt₁ =>
    rw [hiso] at h
    have h₁ := isoParse_valid s dt₁ hiso
    by_cases htz : dt₁.tz.isSome = true
    · simp only [htz, if_true, Option.some_inj] at h
      subst h
      exact h₁
    · simp only [htz, if_false, Option.some_inj] at h
      subst h
      exact h₁
  | none =>
    rw [hiso] at h
    cases hstr : strptimeYmdHms 'T' s with
    | some dt₁ =>
      rw [hstr] at h
      have h₁ := strptimeYmdHms_valid 'T' s dt₁ hstr
      simp only [Option.some_inj] at h
      subst h
      exact h₁
    | none =>
      rw [hstr] at h
      exact Option.noConfusion h

theorem json_loads_empty : json_loads "" = none := rfl

theorem purgeParseTs_empty : purgeParseTs "" = none := rfl

/-- The retention comparison done with floor division (as
`timedelta.days` does) agrees with the spec's truncating division: for
nonnegative ages the two divisions coincide, and both keep every entry
dated in the future. -/
theorem keepEntry_iff_tdiv (now ts : Int) :
    keepEntry now ts = true ↔ Int.tdiv (now - ts) 86400 ≤ 7 := by
  unfold keepEntry DAY_SECS
  simp only [decide_eq_true_eq]
  rcases le_or_lt 0 (now - ts) with h | h
  · rw [Int.tdiv_eq_ediv h (by norm_num)]
  · have h₁ : Int.tdiv (now - ts) 86400 = -Int.tdiv (-(now - ts)) 86400 := by
      rw [← Int.neg_tdiv, neg_neg]
    have h₂ : Int.tdiv (-(now - ts)) 86400 = -(now - ts) / 86400 :=
      Int.tdiv_eq_ediv (by omega) (by norm_num)
    omega

/-- Effective timestamp of an entry whose `timestamp` field is a string
that one of the two purge parses accepts. -/
theorem entryEffTs_parsed (now : Int) (fields : List (String × JVal)) (s : String) (dt : PyDT)
    (hts : jGet fields "timestamp" = some (.str s))
    (hparse : purgeParseTs s = some dt) :
    entryEffTs now (.obj fields) = some (epochSecs dt) := by
  have hs : s ≠ "" := by
    intro h
    rw [h, purgeParseTs_empty] at hparse
    exact Option.noConfusion hparse
  unfold entryEffTs
  simp [hts, pyTruthy, hs, hparse]

/-- Purge of a single-line file whose line parses, expressed through the
entry's effective timestamp. -/
theorem purgeEntries_singleton (now : Int) (line : String) (entry : JVal) (ts : Int)
    (hl : json_loads (pyStrip line) = some entry)
    (heff : entryEffTs now entry = some ts) :
    purgeEntries now [line] = some (if keepEntry now ts then [entry] else []) := by
  have hne : pyStrip line ≠ "" := by
    intro h
    rw [h, json_loads_empty] at hl
    exact Option.noConfusion hl
  unfold purgeEntries
  simp only [hne, if_neg, hl, heff, purgeEntries]
  cases keepEntry now ts <;> simp

/-! ### Claim C3: wrong or missing token -/

/-- Claim C3: a gated request (GET `/{name}/logs` or POST
`/{name}/clearlogs`) whose token is missing or differs from the secret is
answered `401` with the fixed body `{"error": "Unauthorized"}` and leaves
the log file unchanged. -/
theorem c3_unauthorized_rejected (now : Int) (name : String) (token : Option String)
    (file : Option (List String)) (h : token ≠ some DOWNLOAD_SECRET) :
    make_get_handler now token file =
      some (.jsonR (.obj [("error", .str "Unauthorized")]) 401, file) ∧
    make_clear_handler name token file =
      (.jsonR (.obj [("error", .str "Unauthorized")]) 401, file) := by
  constructor
  · unfold make_get_handler
    rw [if_pos h]
    rfl
  · unfold make_clear_handler
    rw [if_pos h]
    rfl

theorem c3_unauthorized_rejected_witness :
    make_get_handler 0 none (some ["x"]) =
      some (.jsonR (.obj [("error", .str "Unauthorized")]) 401, some ["x"]) ∧
    make_clear_handler "webhook1" none (some ["x"]) =
      (.jsonR (.obj [("error", .str "Unauthorized")]) 401, some ["x"]) :=
  c3_unauthorized_rejected 0 "webhook1" none (some ["x"]) (by simp)

/-! ### Claim C8: clear is idempotent -/

/-- Claim C8: one authorized clear leaves the file empty and returns the
success body, and a second consecutive clear (applied to the file state
the first one produced) does exactly the same. -/
theorem c8_clear_idempotent (name : String) (token : Option String)
    (file : Option (List String)) (h : token = some DOWNLOAD_SECRET) :
    make_clear_handler name token file =
      (.jsonR (.obj [("status", .str (name ++ "_logs.json cleared"))]) 200, some []) ∧
    make_clear_handler name token (make_clear_handler name token file).2 =
      (.jsonR (.obj [("status", .str (name ++ "_logs.json cleared"))]) 200, some []) := by
  subst h
  unfold make_clear_handler
  simp

/-! ### Claim C1: the seven-day retention window -/

/-- Claim C1: for a stored entry whose timestamp parses, purge keeps the
entry iff `(now - effective_timestamp)` truncated to whole days is at
most 7; an entry 6 days old is kept, one 8 days old is dropped, one
exactly 7 days and a few hours old is kept, and an entry with no
`timestamp` field is always kept. -/
theorem c1_purge_keep_within_seven_days (now : Int)
    (line line₂ : String) (fields fields₂ : List (String × JVal)) (s : String) (dt : PyDT)
    (hline : json_loads (pyStrip line) = some (.obj fields))
    (hts : jGet fields "timestamp" = some (.str s))
    (hparse : purgeParseTs s = some dt)
    (hline₂ : json_loads (pyStrip line₂) = some (.obj fields₂))
    (hts₂ : jGet fields₂ "timestamp" = none) :
    purgeEntries now [line] =
      some (if Int.tdiv (now - epochSecs dt) 86400 ≤ 7 then [JVal.obj fields] else []) ∧
    (now - epochSecs dt = 6 * 86400 → purgeEntries now [line] = some [JVal.obj fields]) ∧
    (now - epochSecs dt = 8 * 86400 → purgeEntries now [line] = some []) ∧
    (∀ k : Int, 0 < k → k < 86400 → now - epochSecs dt = 7 * 86400 + k →
      purgeEntries now [line] = some [JVal.obj fields]) ∧
    purgeEntries now [line₂] = some [JVal.obj fields₂] := by
  have heff := entryEffTs_parsed now fields s dt hts hparse
  have hmain := purgeEntries_singleton now line _ _ hline heff
  have hiff := keepEntry_iff_tdiv now (epochSecs dt)
  have hswap : purgeEntries now [line] =
      some (if Int.tdiv (now - epochSecs dt) 86400 ≤ 7 then [JVal.obj fields] else []) := by
    rw [hmain]
    by_cases hk : Int.tdiv (now - epochSecs dt) 86400 ≤ 7
    · rw [if_pos (hiff.mpr hk), if_pos hk]
    · rw [if_neg (fun hh => hk (hiff.mp hh)), if_neg hk]
  refine ⟨hswap, ?_, ?_, ?_, ?_⟩
  · intro h6
    rw [hswap, h6, if_pos (by decide)]
  · intro h8
    rw [hswap, h8, if_neg (by decide)]
  · intro k hk0 hk1 h7
    rw [hswap, h7, if_pos ?_]
    rw [Int.tdiv_eq_ediv (by omega) (by norm_num)]
    omega
  · have heff₂ : entryEffTs now (.obj fields₂) = some now := by
      unfold entryEffTs
      simp [hts₂]
    rw [purgeEntries_singleton now line₂ _ _ hline₂ heff₂,
      if_pos (by simp [keepEntry, DAY_SECS])]

theorem c1_purge_keep_within_seven_days_witness :
    purgeEntries 1791806400 ["\x7b\"timestamp\": \"2026-10-06T12:00:00\"\x7d"] =
      some [JVal.obj [("timestamp", .str "2026-10-06T12:00:00")]] ∧
    purgeEntries 1791806400 ["\x7b\"a\": 1\x7d"] = some [JVal.obj [("a", .num 1)]] :=
  have h := c1_purge_keep_within_seven_days 1791806400
    "\x7b\"timestamp\": \"2026-10-06T12:00:00\"\x7d" "\x7b\"a\": 1\x7d"
    [("timestamp", .str "2026-10-06T12:00:00")] [("a", .num 1)]
    "2026-10-06T12:00:00" ⟨2026, 10, 6, 12, 0, 0, some 0⟩ rfl rfl rfl rfl rfl
  ⟨h.2.1 (by decide), h.2.2.2.2⟩

/-! ### Claim C6: missing, falsy or unparseable timestamps -/

/-- Counterexample to claim C6 as stated: on an entry whose `timestamp`
is the number `5` (truthy, not a string), `datetime.fromisoformat` raises
an uncaught `TypeError` — only `ValueError` is caught — so the purge
*does* fail (modelled as `none`) instead of substituting the current
time. -/
theorem c6_claim_false_numeric_timestamp :
    purge_old_entries 0 [dumpsStr (.obj [("timestamp", .num 5)])] = none ∧
    entryEffTs 0 (.obj [("timestamp", .num 5)]) = none :=
  ⟨rfl, rfl⟩

/-- Claim C6 as amended: for entries whose `timestamp` field is absent,
falsy, or a string, purge does not fail; the current time is substituted
(and the entry therefore kept) when the field is absent, falsy, or an
unparseable string. -/
theorem c6_unparseable_timestamp_kept (now : Int) (fields : List (String × JVal)) (line : String)
    (hline : json_loads (pyStrip line) = some (.obj fields)) :
    (jGet fields "timestamp" = none → purgeEntries now [line] = some [JVal.obj fields]) ∧
    (∀ v, jGet fields "timestamp" = some v → pyTruthy v = false →
      purgeEntries now [line] = some [JVal.obj fields]) ∧
    (∀ s, jGet fields "timestamp" = some (.str s) → purgeParseTs s = none →
      purgeEntries now [line] = some [JVal.obj fields]) ∧
    (∀ s, jGet fields "timestamp" = some (.str s) →
      ∃ r, purgeEntries now [line] = some r) := by
  have hkeepnow : keepEntry now now = true := by
    simp [keepEntry, DAY_SECS]
  refine ⟨?_, ?_, ?_, ?_⟩
  · intro habs
    have heff : entryEffTs now (.obj fields) = some now := by
      unfold entryEffTs
      simp [habs]
    rw [purgeEntries_singleton now line _ _ hline heff, if_pos hkeepnow]
  · intro v hv hfalsy
    have heff : entryEffTs now (.obj fields) = some now := by
      unfold entryEffTs
      simp [hv, hfalsy]
    rw [purgeEntries_singleton now line _ _ hline heff, if_pos hkeepnow]
  · intro s hs hbad
    have heff : entryEffTs now (.obj fields) = some now := by
      unfold entryEffTs
      by_cases hemp : s = ""
      · subst hemp
        simp [hs, pyTruthy]
      · simp [hs, pyTruthy, hemp, hbad]
    rw [purgeEntries_singleton now line _ _ hline heff, if_pos hkeepnow]
  · intro s hs
    by_cases hemp : s = ""
    · subst hemp
      have heff : entryEffTs now (.obj fields) = some now := by
        unfold entryEffTs
        simp [hs, pyTruthy]
      exact ⟨_, purgeEntries_singleton now line _ _ hline heff⟩
    · cases hparse : purgeParseTs s with
      | none =>
        have heff : entryEffTs now (.obj fields) = some now := by
          unfold entryEffTs
          simp [hs, pyTruthy, hemp, hparse]
        exact ⟨_, purgeEntries_singleton now line _ _ hline heff⟩
      | some dt =>
        exact ⟨_, purgeEntries_singleton now line _ _ hline
          (entryEffTs_parsed now fields s dt hs hparse)⟩

theorem c6_unparseable_timestamp_kept_witness :
    purgeEntries 0 ["\x7b\"timestamp\": \"not a date\"\x7d"] =
      some [JVal.obj [("timestamp", .str "not a date")]] :=
  (c6_unparseable_timestamp_kept 0 [("timestamp", .str "not a date")]
      "\x7b\"timestamp\": \"not a date\"\x7d" rfl).2.2.1 "not a date" rfl rfl

/-! ### Claim C7: which request bodies ingest accepts -/

/-- Counterexample to claim C7 as stated: the body `5` is valid JSON, but
`"timestamp" not in 5` raises an uncaught `TypeError`, so the request is
answered with a server error (response modelled `none`, not `200`) and
nothing is appended to the file. -/
theorem c7_claim_false_nonobject_body :
    make_post_handler ⟨2026, 10, 12, 12, 0, 0, some 0⟩ (.num 5) (some []) = (none, some []) :=
  rfl

/-- Shared helper: full case analysis of the POST handler on the decoded
body — an object (or falsy body, replaced by `{}`) is appended and
answered `200`; a truthy non-object raises. -/
theorem post_handler_body_cases (nowDT : PyDT) (body : JVal)
    (file : Option (List String)) (fOpt : Option (List String))
    (hpurge : purgeFile (epochSecs nowDT) file = some fOpt) :
    (∀ fields, body = .obj fields →
      make_post_handler nowDT body file =
        (some (.textR "" 200),
         some (fOpt.getD [] ++ [dumpsStr (.obj (if hasKey fields "timestamp" then fields
            else fields ++ [("timestamp", .str (isoformatDT nowDT))]))]))) ∧
    (pyTruthy body = false →
      make_post_handler nowDT body file =
        (some (.textR "" 200),
         some (fOpt.getD [] ++ [dumpsStr (.obj [("timestamp", .str (isoformatDT nowDT))])]))) ∧
    ((∀ fields, body ≠ .obj fields) → pyTruthy body = true →
      (make_post_handler nowDT body file).1 = none) := by
  refine ⟨?_, ?_, ?_⟩
  · rintro fields rfl
    have hdata : (if pyTruthy (JVal.obj fields) = true then JVal.obj fields else JVal.obj []) =
        JVal.obj fields := by
      cases fields <;> simp [pyTruthy]
    unfold make_post_handler
    rw [hdata]
    simp [hpurge]
  · intro hf
    unfold make_post_handler
    rw [hf]
    simp [hpurge, hasKey, jGet]
  · intro hne htr
    unfold make_post_handler
    rw [htr]
    cases body with
    | null => simp [pyTruthy] at htr
    | bool b => simp
    | num n => simp
    | str s =>
      by_cases hc : containsSub s "timestamp" <;> simp [hc, hpurge]
    | arr l =>
      by_cases hc : l.any (fun v => match v with | .str s => s = "timestamp" | _ => false) <;>
        simp [hc, hpurge]
    | obj fields => exact absurd rfl (hne fields)

/-- Claim C7 as amended: POST `/{name}` appends one serialized entry and
responds `200` with an empty body exactly when the decoded body is a JSON
object or falsy; a truthy non-object body makes the handler raise. -/
theorem c7_object_or_falsy_bodies (nowDT : PyDT) (body : JVal)
    (file : Option (List String)) (fOpt : Option (List String))
    (hpurge : purgeFile (epochSecs nowDT) file = some fOpt) :
    (∀ fields, body = .obj fields →
      make_post_handler nowDT body file =
        (some (.textR "" 200),
         some (fOpt.getD [] ++ [dumpsStr (.obj (if hasKey fields "timestamp" then fields
            else fields ++ [("timestamp", .str (isoformatDT nowDT))]))]))) ∧
    (pyTruthy body = false →
      make_post_handler nowDT body file =
        (some (.textR "" 200),
         some (fOpt.getD [] ++ [dumpsStr (.obj [("timestamp", .str (isoformatDT nowDT))])]))) ∧
    ((∀ fields, body ≠ .obj fields) → pyTruthy body = true →
      (make_post_handler nowDT body file).1 = none) :=
  post_handler_body_cases nowDT body file fOpt hpurge

theorem c7_object_or_falsy_bodies_witness :
    make_post_handler ⟨2026, 10, 12, 12, 0, 0, some 0⟩ (.obj [("a", .num 1)]) none =
      (some (.textR "" 200),
       some [dumpsStr (.obj [("a", .num 1),
          ("timestamp", .str (isoformatDT ⟨2026, 10, 12, 12, 0, 0, some 0⟩))])]) := by
  have h := (c7_object_or_falsy_bodies ⟨2026, 10, 12, 12, 0, 0, some 0⟩
    (.obj [("a", .num 1)]) none none rfl).1 [("a", .num 1)] rfl
  simpa [hasKey, jGet] using h

/-! ### Claim C9: falsy bodies become the empty dict -/

/-- Claim C9: a request body decoding to a falsy JSON value is replaced
by `{}`, so the stored entry consists of exactly the server-assigned
`timestamp` field and the request succeeds with `200` (provided the purge
of the pre-existing file raises no exception, which is independent of the
body). -/
theorem c9_falsy_body_stored_as_timestamp_only (nowDT : PyDT) (body : JVal)
    (file : Option (List String)) (fOpt : Option (List String))
    (hfalsy : pyTruthy body = false)
    (hpurge : purgeFile (epochSecs nowDT) file = some fOpt) :
    make_post_handler nowDT body file =
      (some (.textR "" 200),
       some (fOpt.getD [] ++ [dumpsStr (.obj [("timestamp", .str (isoformatDT nowDT))])])) :=
  (post_handler_body_cases nowDT body file fOpt hpurge).2.1 hfalsy

theorem c9_falsy_body_stored_as_timestamp_only_witness :
    make_post_handler ⟨2026, 10, 12, 12, 0, 0, some 0⟩ .null none =
      (some (.textR "" 200),
       some [dumpsStr (.obj [("timestamp",
          .str (isoformatDT ⟨2026, 10, 12, 12, 0, 0, some 0⟩))])]) := by
  simpa using c9_falsy_body_stored_as_timestamp_only ⟨2026, 10, 12, 12, 0, 0, some 0⟩
    .null none none rfl rfl

theorem c8_clear_idempotent_witness :
    make_clear_handler "webhook1" (some DOWNLOAD_SECRET) (some ["x", "y"]) =
      (.jsonR (.obj [("status", .str "webhook1_logs.json cleared")]) 200, some []) ∧
    make_clear_handler "webhook1" (some DOWNLOAD_SECRET)
        (make_clear_handler "webhook1" (some DOWNLOAD_SECRET) (some ["x", "y"])).2 =
      (.jsonR (.obj [("status", .str "webhook1_logs.json cleared")]) 200, some []) :=
  c8_clear_idempotent "webhook1" (some DOWNLOAD_SECRET) (some ["x", "y"]) rfl

/-! ### Claim C4: the curated message formatter -/

/-- Counterexample to claim C4 as stated: the field `note` is neither
excluded nor null, yet the formatted message for `{"note": ""}` contains
no `Note:` line — a field whose rendered value is empty is omitted, so
not every non-excluded, non-null field is rendered. -/
theorem c4_claim_false_empty_value :
    curatedLines [("note", JVal.str "")] = [] ∧ fieldLabel "note" = "Note" :=
  ⟨rfl, rfl⟩

/-- Claim C4 as amended: on the reference input the message omits the
`webhook_url` line and renders exactly `Action: buy` and
`Timestamp (IST): 05:30:00 01/01/2024`; in general every non-excluded,
non-null field whose rendered value is non-empty contributes the line
`<label>: <value>`, the label of a non-`timestamp` key is the title-cased
key with underscores replaced by spaces, and a parseable string
`timestamp` is rendered at the fixed UTC+5:30 offset by an
instant-preserving conversion. -/
theorem c4_formatter_rendering :
    (curatedLines [("action", .str "buy"), ("timestamp", .str "2024-01-01T00:00:00Z"),
        ("webhook_url", .str "x")] =
      ["Action: buy", "Timestamp (IST): 05:30:00 01/01/2024"]) ∧
    (∀ (fields : List (String × JVal)) (k : String) (v : JVal),
      (k, v) ∈ fields → k ∉ EXCLUDED_KEYS → v ≠ .null → fieldValueStr k v ≠ "" →
      (fieldLabel k ++ ": " ++ fieldValueStr k v) ∈ curatedLines fields) ∧
    (∀ k, k ≠ "timestamp" → fieldLabel k = pyTitle (pyReplaceUnderscore k)) ∧
    (∀ (s : String) (dt : PyDT), fmtParseTs s = some dt →
      formatTimestampIST (.str s) =
        strftimeHmsDmy (astimezoneIST (if dt.tz.isSome then dt else withTz dt 0)) ∧
      (astimezoneIST (if dt.tz.isSome then dt else withTz dt 0)).tz = some IST_OFFSET_MIN ∧
      epochSecs (astimezoneIST (if dt.tz.isSome then dt else withTz dt 0)) =
        epochSecs (if dt.tz.isSome then dt else withTz dt 0)) := by
  refine ⟨rfl, ?_, ?_, ?_⟩
  · intro fields k v hmem hexc hnn hne
    refine List.mem_filterMap.mpr ⟨(k, v), hmem, ?_⟩
    unfold curatedLineOf
    rw [if_neg hexc]
    cases v with
    | null => exact absurd rfl hnn
    | bool b => rw [if_neg hne]
    | num n => rw [if_neg hne]
    | str s => rw [if_neg hne]
    | arr l => rw [if_neg hne]
    | obj l => rw [if_neg hne]
  · intro k hk
    unfold fieldLabel
    rw [if_neg hk]
  · intro s dt h
    have hv : PyDT.valid (if dt.tz.isSome then dt else withTz dt 0) := by
      have := fmtParseTs_valid s dt h
      split <;> simpa [withTz_valid]
    refine ⟨?_, rfl, epochSecs_astimezoneIST _ hv⟩
    unfold formatTimestampIST
    simp only [h]

theorem c4_formatter_rendering_witness :
    ("Price Level: 42" ∈ curatedLines [("price_level", .num 42)]) ∧
    formatTimestampIST (.str "2024-01-01T00:00:00Z") =
      strftimeHmsDmy (astimezoneIST (if (⟨2024, 1, 1, 0, 0, 0, some 0⟩ : PyDT).tz.isSome
        then (⟨2024, 1, 1, 0, 0, 0, some 0⟩ : PyDT)
        else withTz ⟨2024, 1, 1, 0, 0, 0, some 0⟩ 0) ) :=
  ⟨c4_formatter_rendering.2.1 [("price_level", .num 42)] "price_level" (.num 42)
      (by simp) (by decide) (by decide) (by decide),
   (c4_formatter_rendering.2.2.2 "2024-01-01T00:00:00Z" ⟨2024, 1, 1, 0, 0, 0, some 0⟩ rfl).1⟩

/-! ### Claim C10: purge idempotence at a fixed reference time -/

/-- Claim C10: on a log file whose parseable lines are JSON objects with
string-or-absent `timestamp` fields, the purge raises no exception, and
running it twice at the same reference time produces the same file as
running it once: every kept entry is re-serialized to a line that strips
and parses back to an equal entry with the same retention decision. -/
theorem c10_purge_idempotent (now : Int) (lines : List String)
    (h : ∀ line ∈ lines, ∀ e, json_loads (pyStrip line) = some e →
      ∃ fields, e = JVal.obj fields ∧
        (jGet fields "timestamp" = none ∨ ∃ s, jGet fields "timestamp" = some (JVal.str s))) :
    ∃ out, purge_old_entries now lines = some out ∧ purge_old_entries now out = some out := by
  obtain ⟨kept, hk⟩ := purgeEntries_total now lines h
  refine ⟨kept.map dumpsStr, ?_, ?_⟩
  · rw [purge_old_entries, hk]
    rfl
  · rw [purge_old_entries, purgeEntries_roundtrip now kept (purgeEntries_spec now lines kept hk)]
    rfl

theorem c10_purge_idempotent_witness :
    ∃ out, purge_old_entries 0 ["\x7b\"a\": 1\x7d"] = some out ∧
      purge_old_entries 0 out = some out :=
  c10_purge_idempotent 0 ["\x7b\"a\": 1\x7d"] (by
    intro line hline e he
    rw [List.mem_singleton] at hline
    subst hline
    have hv : json_loads (pyStrip "\x7b\"a\": 1\x7d") = some (JVal.obj [("a", JVal.num 1)]) := rfl
    rw [hv] at he
    cases he
    exact ⟨[("a", JVal.num 1)], rfl, Or.inl rfl⟩)

/-! ### Claim C5: tolerance of malformed stored lines -/

/-- Counterexample to claim C5 as stated: the GET does not return the
entries of every parseable line — it purges first, so a parseable but
out-of-window line is dropped from the response and from the rewritten
file along with the malformed lines.  Here the file's single parseable
entry is nine days old at the reference time, so the one-valid-line plus
one-garbage-line file yields the empty list, not a one-element list. -/
theorem c5_claim_false_old_valid_line :
    make_get_handler 1791806400 (some DOWNLOAD_SECRET)
        (some ["\x7b\"timestamp\": \"2026-10-03T12:00:00\"\x7d", "garbage"]) =
      some (Resp.jsonR (.arr []) 200, some []) ∧
    readLogs ["\x7b\"timestamp\": \"2026-10-03T12:00:00\"\x7d", "garbage"] =
      [JVal.obj [("timestamp", JVal.str "2026-10-03T12:00:00")]] := by
  constructor
  · rfl
  · rfl

/-- Claim C5 (amended): provided the purge raises no exception, an
authorized GET returns exactly the kept entries: blank and malformed
lines are skipped, the kept entries are a sublist of the parseable
entries in order, and the file is rewritten to the kept entries'
serializations, which read back unchanged — so malformed lines are
dropped from the rewritten file. -/
theorem c5_malformed_lines_skipped (now : Int) (lines : List String) (kept : List JVal)
    (h : purgeEntries now lines = some kept) :
    make_get_handler now (some DOWNLOAD_SECRET) (some lines) =
      some (Resp.jsonR (.arr kept) 200, some (kept.map dumpsStr)) ∧
    kept.Sublist (readLogs lines) ∧
    readLogs (kept.map dumpsStr) = kept := by
  have hwf : ∀ e ∈ kept, wfV e = true := fun e he => (purgeEntries_spec now lines kept h e he).1
  have hread : readLogs (kept.map dumpsStr) = kept := readLogs_map_dumpsStr kept hwf
  refine ⟨?_, purgeEntries_sublist now lines kept h, hread⟩
  rw [make_get_handler, if_neg (by simp)]
  have hp : purgeFile now (some lines) = some (some (kept.map dumpsStr)) := by
    rw [purgeFile, purge_old_entries, h]
    rfl
  simp only [hp, hread]

theorem c5_malformed_lines_skipped_witness :
    make_get_handler 1791806400 (some DOWNLOAD_SECRET)
        (some ["\x7b\"timestamp\": \"2026-10-12T10:00:00\"\x7d", "garbage"]) =
      some (Resp.jsonR (.arr [JVal.obj [("timestamp", JVal.str "2026-10-12T10:00:00")]]) 200,
        some ([JVal.obj [("timestamp", JVal.str "2026-10-12T10:00:00")]].map dumpsStr)) ∧
    [JVal.obj [("timestamp", JVal.str "2026-10-12T10:00:00")]].Sublist
      (readLogs ["\x7b\"timestamp\": \"2026-10-12T10:00:00\"\x7d", "garbage"]) ∧
    readLogs ([JVal.obj [("timestamp", JVal.str "2026-10-12T10:00:00")]].map dumpsStr) =
      [JVal.obj [("timestamp", JVal.str "2026-10-12T10:00:00")]] :=
  c5_malformed_lines_skipped 1791806400 _ _ rfl

/-! ### Claim C2: post then get -/

theorem nodupKeys_append_one (l : List (String × JVal)) (k : String) (v : JVal)
    (h : nodupKeys l = true) (hk : l.any (fun p => p.1 == k) = false) :
    nodupKeys (l ++ [(k, v)]) = true := by
  induction l with
  | nil => rfl
  | cons p rest ih =>
    obtain ⟨k₁, v₁⟩ := p
    rw [nodupKeys, Bool.and_eq_true] at h
    rw [List.any_cons, Bool.or_eq_false_iff] at hk
    rw [List.cons_append, nodupKeys, Bool.and_eq_true]
    constructor
    · have h₁ : rest.any (fun p => p.1 == k₁) = false := by simpa using h.1
      have hne : k₁ ≠ k := by simpa using hk.1
      have hk₁ : (k == k₁) = false := by simpa using Ne.symm hne
      simp [List.any_append, h₁, hk₁]
    · exact ih h.2 hk.2

theorem wfM_append_one (l : List (String × JVal)) (k : String) (v : JVal)
    (h : wfM l = true) (hv : wfV v = true) : wfM (l ++ [(k, v)]) = true := by
  induction l with
  | nil =>
    rw [List.nil_append, wfM, Bool.and_eq_true]
    exact ⟨hv, rfl⟩
  | cons p rest ih =>
    rw [wfM, Bool.and_eq_true] at h
    rw [List.cons_append, wfM, Bool.and_eq_true]
    exact ⟨h.1, ih h.2⟩

/-- Counterexample to claim C2 as stated: an entry whose own timestamp is
stale is stored by the POST but dropped by the purge the GET runs first,
so the subsequent authorized GET does not include it. -/
theorem c2_claim_false_stale_timestamp :
    make_post_handler ⟨2026, 10, 12, 12, 0, 0, some 0⟩
        (JVal.obj [("timestamp", JVal.str "2020-01-01T00:00:00+00:00")]) none =
      (some (Resp.textR "" 200),
        some [dumpsStr (JVal.obj [("timestamp", JVal.str "2020-01-01T00:00:00+00:00")])]) ∧
    make_get_handler (epochSecs ⟨2026, 10, 12, 12, 0, 0, some 0⟩) (some DOWNLOAD_SECRET)
        (some [dumpsStr (JVal.obj [("timestamp", JVal.str "2020-01-01T00:00:00+00:00")])]) =
      some (Resp.jsonR (.arr []) 200, some []) := by
  constructor
  · rfl
  · rfl

/-- Claim C2 (amended): posting a well-formed JSON object stores it with
the server timestamp appended when the field is absent; a later
authorized GET returns the stored entries in insertion order with the
new entry last and so includes it — provided the purge raises no
exception at either request and the entry's effective timestamp is still
within the retention window at the GET. -/
theorem c2_post_then_get (nowDT : PyDT) (getNow : Int) (fields fields₂ : List (String × JVal))
    (file f₂ : Option (List String)) (keptPrev : List JVal)
    (hwf : wfV (JVal.obj fields) = true)
    (hf₂ : fields₂ = if hasKey fields "timestamp" then fields
      else fields ++ [("timestamp", JVal.str (isoformatDT nowDT))])
    (hpurge : purgeFile (epochSecs nowDT) file = some f₂)
    (hprev : purgeEntries getNow (f₂.getD []) = some keptPrev)
    (hkeep : ∃ ts, entryEffTs getNow (JVal.obj fields₂) = some ts ∧ keepEntry getNow ts = true) :
    make_post_handler nowDT (JVal.obj fields) file =
      (some (Resp.textR "" 200), some (f₂.getD [] ++ [dumpsStr (JVal.obj fields₂)])) ∧
    make_get_handler getNow (some DOWNLOAD_SECRET)
        (some (f₂.getD [] ++ [dumpsStr (JVal.obj fields₂)])) =
      some (Resp.jsonR (.arr (keptPrev ++ [JVal.obj fields₂])) 200,
        some ((keptPrev ++ [JVal.obj fields₂]).map dumpsStr)) ∧
    JVal.obj fields₂ ∈ keptPrev ++ [JVal.obj fields₂] := by
  have hwf₂ : wfV (JVal.obj fields₂) = true := by
    by_cases hkf : hasKey fields "timestamp" = true
    · rw [hf₂, if_pos hkf]
      exact hwf
    · have hget : jGet fields "timestamp" = none := by
        rcases hj : jGet fields "timestamp" with _ | w
        · rfl
        · exfalso
          rw [hasKey, hj] at hkf
          exact hkf rfl
      have hany : fields.any (fun p => p.1 == "timestamp") = false :=
        (jGet_eq_none_iff fields "timestamp").mp hget
      rw [hf₂, if_neg hkf]
      rw [wfV, Bool.and_eq_true] at hwf ⊢
      exact ⟨nodupKeys_append_one fields _ _ hwf.1 hany, wfM_append_one fields _ _ hwf.2 rfl⟩
  obtain ⟨ts, hts, hkeepb⟩ := hkeep
  have hkeptwf : ∀ e ∈ keptPrev, wfV e = true :=
    fun e he => (purgeEntries_spec getNow (f₂.getD []) keptPrev hprev e he).1
  have hone : purgeEntries getNow [dumpsStr (JVal.obj fields₂)] = some [JVal.obj fields₂] := by
    have hrt := purgeEntries_roundtrip getNow [JVal.obj fields₂] ?_
    · simpa using hrt
    · intro e he
      rw [List.mem_singleton] at he
      subst he
      exact ⟨hwf₂, ts, hts, hkeepb⟩
  have hall : purgeEntries getNow (f₂.getD [] ++ [dumpsStr (JVal.obj fields₂)]) =
      some (keptPrev ++ [JVal.obj fields₂]) := by
    rw [purgeEntries_append, hprev, hone]
    rfl
  refine ⟨?_, ?_, List.mem_append_right _ (List.mem_singleton_self _)⟩
  · have hdata : (if pyTruthy (JVal.obj fields) = true then JVal.obj fields else JVal.obj []) =
        JVal.obj fields := by
      cases fields with
      | nil => exact ite_self _
      | cons p prest => exact if_pos rfl
    simp only [make_post_handler, hdata, ← hf₂, hpurge]
  · rw [make_get_handler, if_neg (by simp)]
    have hp : purgeFile getNow (some (f₂.getD [] ++ [dumpsStr (JVal.obj fields₂)])) =
        some (some ((keptPrev ++ [JVal.obj fields₂]).map dumpsStr)) := by
      rw [purgeFile, purge_old_entries, hall]
      rfl
    have hrd : readLogs ((keptPrev ++ [JVal.obj fields₂]).map dumpsStr) =
        keptPrev ++ [JVal.obj fields₂] := by
      refine readLogs_map_dumpsStr _ ?_
      intro e he
      rcases List.mem_append.mp he with he | he
      · exact hkeptwf e he
      · rw [List.mem_singleton] at he
        subst he
        exact hwf₂
    simp only [hp, hrd]

theorem c2_post_then_get_witness :
    make_post_handler ⟨2026, 10, 12, 12, 0, 0, some 0⟩ (JVal.obj [("action", JVal.str "buy")])
        none =
      (some (Resp.textR "" 200), some [dumpsStr (JVal.obj [("action", JVal.str "buy"),
        ("timestamp", JVal.str "2026-10-12T12:00:00+00:00")])]) ∧
    make_get_handler 1791806400 (some DOWNLOAD_SECRET)
        (some [dumpsStr (JVal.obj [("action", JVal.str "buy"),
          ("timestamp", JVal.str "2026-10-12T12:00:00+00:00")])]) =
      some (Resp.jsonR (.arr [JVal.obj [("action", JVal.str "buy"),
          ("timestamp", JVal.str "2026-10-12T12:00:00+00:00")]]) 200,
        some ([JVal.obj [("action", JVal.str "buy"),
          ("timestamp", JVal.str "2026-10-12T12:00:00+00:00")]].map dumpsStr)) ∧
    JVal.obj [("action", JVal.str "buy"), ("timestamp", JVal.str "2026-10-12T12:00:00+00:00")] ∈
      [JVal.obj [("action", JVal.str "buy"),
        ("timestamp", JVal.str "2026-10-12T12:00:00+00:00")]] :=
  c2_post_then_get ⟨2026, 10, 12, 12, 0, 0, some 0⟩ 1791806400
    [("action", JVal.str "buy")]
    [("action", JVal.str "buy"), ("timestamp", JVal.str "2026-10-12T12:00:00+00:00")]
    none none [] rfl rfl rfl rfl ⟨1791806400, rfl, rfl⟩

end Webhook
